import Mathlib

/-!
Verification of the orchestrator's phased-session state machine, its textual
codec, the session store's archival numbering, and the registry
validator/generator, as implemented in `src/mcp_server/session.py`,
`src/main.py` and `src/audit.py`.

Documents are modelled as `List Char`.  The Python regular expressions used by
the source are hand-compiled into executable scanning functions; backtracking
is resolved statically (comments at each definition justify the resolution).
-/

namespace Orchestrator

/-- Shorthand: the character list of a string literal. -/
def cs (s : String) : List Char := s.data

/-- Python's `\s` class (the ASCII whitespace characters; the documents this
system reads and writes only contain ASCII whitespace). -/
def isWs (c : Char) : Bool :=
  c = ' ' || c = '\t' || c = '\n' || c = '\r' || c = '\x0b' || c = '\x0c'

/-- Python's `\w` class restricted to ASCII (letters, digits, underscore). -/
def isWord (c : Char) : Bool := c.isAlpha || c.isDigit || c = '_'

/-- Python `str.strip()`: drop whitespace from both ends. -/
def pyStrip (l : List Char) : List Char :=
  ((l.dropWhile isWs).reverse.dropWhile isWs).reverse

/-- The decimal digit character for `n < 10`. -/
def natDigitChar (n : Nat) : Char := Char.ofNat (48 + n)

/-- Decimal representation, fuelled so that it reduces structurally (the
fuel strictly dominates the number of divisions by ten). -/
def natToDigitsAux : Nat → Nat → List Char
  | 0, _ => []
  | fuel + 1, n =>
    if n < 10 then [natDigitChar n]
    else natToDigitsAux fuel (n / 10) ++ [natDigitChar (n % 10)]

/-- Decimal representation of a natural number, as Python's `f"{n}"` prints it. -/
def natToDigits (n : Nat) : List Char := natToDigitsAux (n + 1) n

/-- Value of a digit string, as Python's `int()` computes it on plain digits. -/
def digitsToNat (l : List Char) : Nat :=
  l.foldl (fun a c => 10 * a + (c.toNat - 48)) 0

/-- `p` occurs as a contiguous substring of `s` (Python `p in s`, and the
position-by-position scan of `re.search`). -/
def containsSub (s p : List Char) : Bool :=
  if p.isPrefixOf s then true
  else
    match s with
    | [] => false
    | _ :: t => containsSub t p

/-- One attempt of `re.search` at the current position: the literal `pat`
must start here and the continuation `cont` (the rest of the regex, with
backtracking already resolved) must succeed on the remainder. -/
def scanStep (pat : List Char) (cont : List Char → Option α) (s : List Char) :
    Option α :=
  if pat.isPrefixOf s then cont (s.drop pat.length) else none

/-- Scan `s` left to right; the first position where the attempt succeeds
wins.  This is `re.search` for the patterns used by the source. -/
def scanFor (pat : List Char) (cont : List Char → Option α) :
    List Char → Option α
  | [] => scanStep pat cont []
  | c :: t => (scanStep pat cont (c :: t)).orElse (fun _ => scanFor pat cont t)

/-- Split into lines at every `'\n'` (Python `str.split('\n')`): `n` newlines
give `n+1` pieces. -/
def splitOnNl : List Char → List (List Char)
  | [] => [[]]
  | c :: t =>
    if c = '\n' then [] :: splitOnNl t
    else
      match splitOnNl t with
      | [] => [[c]]
      | h :: r => (c :: h) :: r

/-- `\s*\n` when the following regex piece must start with a non-whitespace
character: backtracking forces the whole maximal whitespace run to be
consumed, and that run must end in `'\n'`.  Returns the remainder. -/
def afterWsNl (s : List Char) : Option (List Char) :=
  let u := s.takeWhile isWs
  if u ≠ [] ∧ u.getLast? = some '\n' then some (s.dropWhile isWs) else none

/-- `\s*\n` when followed by a lazy `[\s\S]*?` group: the engine consumes the
maximal whitespace run only up to (and including) its last `'\n'`; if the run
has no newline the position fails. -/
def afterWsLastNl (s : List Char) : Option (List Char) :=
  let u := s.takeWhile isWs
  if '\n' ∈ u then
    some ((u.reverse.takeWhile (fun c => ¬ c = '\n')).reverse ++ s.drop u.length)
  else none

/-- The lazy group `([\s\S]*?)(?=\n## |\Z)`: everything up to the first
occurrence of `"\n## "`, or to the end of input. -/
def lazyGroup : List Char → List Char
  | [] => []
  | c :: t => if (cs "\n## ").isPrefixOf (c :: t) then [] else c :: lazyGroup t

/-! ## Session document model (`src/mcp_server/session.py`) -/

/-- One entry of the ordered phase list. -/
structure Phase where
  number : Nat
  complete : Bool
  agent : List Char
  description : List Char
deriving Repr, DecidableEq

/-- The parsed session document (the dict built by `parse_session`). -/
structure Session where
  name : List Char
  phase : Nat
  total_phases : Nat
  current_agent : List Char
  state : List Char
  user_request : List Char
  phases : List Phase
  work_log : List Char
deriving Repr, DecidableEq

/-- `^# Session: (.+)$` with `re.MULTILINE`: the first line starting with
`"# Session: "` followed by at least one character; the group is the rest of
that line, then `.strip()`.  Empty string when no line matches. -/
def parseName (s : List Char) : List Char :=
  go (splitOnNl s)
where
  go : List (List Char) → List Char
  | [] => []
  | l :: rest =>
    if (cs "# Session: ").isPrefixOf l ∧ l.drop 11 ≠ [] then pyStrip (l.drop 11)
    else go rest

/-- A line matching `- .+` (with its terminating newline stripped off):
`"- "` followed by at least one character. -/
def isDashLine (l : List Char) : Bool :=
  match l with
  | '-' :: ' ' :: rest => rest ≠ []
  | _ => false

/-- A line matching `\d+\. .+` (newline stripped): one or more digits, a
literal `". "`, then at least one character. -/
def isNumLine (l : List Char) : Bool :=
  let d := l.takeWhile Char.isDigit
  d ≠ [] &&
    match l.drop d.length with
    | '.' :: ' ' :: r => r ≠ []
    | _ => false

/-- The newline-terminated lines of `s`, i.e. all pieces of the split except
the final unterminated one. -/
def termLines (s : List Char) : List (List Char) := (splitOnNl s).dropLast

/-- Greedy `(grp)+` over newline-terminated lines satisfying `p`, starting at
the current position: the maximal leading run, re-concatenated with their
newlines (the raw text captured by the group).  `none` if the first line does
not match (the `+` needs at least one). -/
def lineBlock (p : List Char → Bool) (s : List Char) : Option (List Char) :=
  let bl := (termLines s).takeWhile p
  if bl = [] then none else some (bl.foldr (fun l acc => l ++ '\n' :: acc) [])

/-- `## Status\s*\n((?:- .+\n)+)` via `re.search`: the captured status block. -/
def statusBlock (s : List Char) : Option (List Char) :=
  scanFor (cs "## Status") (fun r => (afterWsNl r).bind (lineBlock isDashLine)) s

/-- `Phase: (\d+) of (\d+)` via `re.search` inside the status block.  The
first `\d+` is the maximal digit run (shorter runs leave a digit where
`" of "` must match), likewise the second. -/
def phasePair (b : List Char) : Option (Nat × Nat) :=
  scanFor (cs "Phase: ")
    (fun r =>
      let d1 := r.takeWhile Char.isDigit
      if d1 = [] then none
      else
        let r1 := r.drop d1.length
        if (cs " of ").isPrefixOf r1 then
          let d2 := (r1.drop 4).takeWhile Char.isDigit
          if d2 = [] then none else some (digitsToNat d1, digitsToNat d2)
        else none)
    b

/-- `Current Agent: (\S+)` via `re.search` inside the status block. -/
def agentField (b : List Char) : Option (List Char) :=
  scanFor (cs "Current Agent: ")
    (fun r =>
      let t := r.takeWhile (fun c => !isWs c)
      if t = [] then none else some t)
    b

/-- `State: (\w+)` via `re.search` inside the status block. -/
def stateField (b : List Char) : Option (List Char) :=
  scanFor (cs "State: ")
    (fun r =>
      let t := r.takeWhile isWord
      if t = [] then none else some t)
    b

/-- `## <heading>\s*\n([\s\S]*?)(?=\n## |\Z)` via `re.search`, then
`.strip()` on the group. -/
def sectionText (heading : List Char) (s : List Char) : Option (List Char) :=
  scanFor heading (fun r => (afterWsLastNl r).map (fun r2 => pyStrip (lazyGroup r2))) s

/-- `re.match(r'(\d+)\. \[([x ])\] (\S+) - (.+)', line.strip())`: the agent
group `(\S+)` is the maximal non-whitespace run (a shorter split puts the
following literal space on a non-whitespace character), `" - "` must follow
it, and the description is the non-empty rest of the line. -/
def phaseLineParse (l : List Char) : Option Phase :=
  let l' := pyStrip l
  let d := l'.takeWhile Char.isDigit
  if d = [] then none
  else
    match l'.drop d.length with
    | '.' :: ' ' :: '[' :: c :: ']' :: ' ' :: r =>
      if c = 'x' ∨ c = ' ' then
        let w := r.takeWhile (fun ch => !isWs ch)
        if w = [] then none
        else
          match r.drop w.length with
          | ' ' :: '-' :: ' ' :: desc =>
            if desc = [] then none
            else some ⟨digitsToNat d, c = 'x', w, desc⟩
          | _ => none
      else none
    | _ => none

/-- `## Phases\s*\n((?:\d+\. .+\n)+)` via `re.search`: the captured block. -/
def phasesBlock (s : List Char) : Option (List Char) :=
  scanFor (cs "## Phases") (fun r => (afterWsNl r).bind (lineBlock isNumLine)) s

/-- `match.group(1).strip().split('\n')`, each line matched against the phase
line pattern; non-matching lines are skipped. -/
def parsePhasesBlock (block : List Char) : List Phase :=
  (splitOnNl (pyStrip block)).filterMap phaseLineParse

/-- `parse_session` (`session.py` lines 28-87): every absent field keeps its
zero-value default. -/
def parseSession (content : List Char) : Session :=
  let sb := statusBlock content
  let pp := sb.bind phasePair
  { name := parseName content
    phase := (pp.map Prod.fst).getD 0
    total_phases := (pp.map Prod.snd).getD 0
    current_agent := (sb.bind agentField).getD []
    state := (sb.bind stateField).getD (cs "unknown")
    user_request := (sectionText (cs "## User Request") content).getD []
    phases := ((phasesBlock content).map parsePhasesBlock).getD []
    work_log := (sectionText (cs "## Work Log") content).getD [] }

/-- The placeholder the encoder writes for an empty work log. -/
def workLogPlaceholder : List Char := cs "(agents will update this)"

/-- One line of the `## Phases` section, as `format_session` prints it. -/
def phaseLineText (p : Phase) : List Char :=
  natToDigits p.number ++ cs ". [" ++ [if p.complete then 'x' else ' '] ++
    cs "] " ++ p.agent ++ cs " - " ++ p.description

/-- `"\n".join(...)` over the phase lines. -/
def phasesText : List Phase → List Char
  | [] => []
  | [p] => phaseLineText p
  | p :: q :: r => phaseLineText p ++ '\n' :: phasesText (q :: r)

/-- `format_session` (`session.py` lines 90-114): the fields of the session
printed in order with the fixed literal text of the template between them
(the concatenation is grouped from the back; the output is the exact
template string). -/
def formatSession (s : Session) : List Char :=
  let tail6 := cs "## Work Log" ++ ('\n' ::
    ((if s.work_log = [] then workLogPlaceholder else s.work_log) ++ ['\n']))
  let tail5 := cs "## Phases" ++ ('\n' ::
    (phasesText s.phases ++ ('\n' :: '\n' :: tail6)))
  let tail4 := cs "## User Request" ++ ('\n' ::
    (s.user_request ++ ('\n' :: '\n' :: tail5)))
  let tail3 := cs "- " ++ (cs "State: " ++ (s.state ++ ('\n' :: '\n' :: tail4)))
  let tail2 := cs "- " ++ (cs "Current Agent: " ++
    (s.current_agent ++ ('\n' :: tail3)))
  let tail1 := cs "- " ++ (cs "Phase: " ++ (natToDigits s.phase ++
    (cs " of " ++ (natToDigits s.total_phases ++ ('\n' :: tail2)))))
  let tail0 := cs "## Status" ++ ('\n' :: tail1)
  cs "# Session: " ++ (s.name ++ ('\n' :: '\n' :: tail0))

/-! ## Phase progression state machine (`src/mcp_server/session.py`) -/

/-- The `for ... break / else` loop of `session_mark_phase_complete`: set the
first phase numbered `k` complete and remember its agent; `none` when no
phase has that number. -/
def markFirst : List Phase → Nat → Option (List Phase × List Char)
  | [], _ => none
  | p :: rest, k =>
    if p.number = k then some ({ p with complete := true } :: rest, p.agent)
    else (markFirst rest k).map (fun x => (p :: x.1, x.2))

/-- The first incomplete phase, in list order (`session_get_next_phase`'s
loop, and the next-phase loop of `session_mark_phase_complete`). -/
def getNextPhase (s : Session) : Option Phase :=
  s.phases.find? (fun p => !p.complete)

/-- The pure state transition of `session_mark_phase_complete`
(`session.py` lines 172-204): mark the phase, recompute the next phase and
the status fields, and append the notes to the work log. -/
def markSession (s : Session) (k : Nat) (notes : List Char) : Option Session :=
  match markFirst s.phases k with
  | none => none
  | some (phases', agent') =>
    let next := phases'.find? (fun p => !p.complete)
    let s' : Session :=
      match next with
      | some q =>
        { s with phases := phases', phase := q.number, current_agent := q.agent,
                 state := cs "pending" }
      | none =>
        { s with phases := phases', state := cs "complete",
                 current_agent := cs "none" }
    if notes = [] then some s'
    else
      let entry := cs "### Phase " ++ natToDigits k ++ cs " (" ++ agent' ++
        cs ")\n" ++ notes
      some { s' with work_log :=
        if s'.work_log ≠ [] ∧ s'.work_log ≠ workLogPlaceholder then
          s'.work_log ++ cs "\n\n" ++ entry
        else entry }

/-- `session_is_complete` (`session.py` lines 217-235): the reported
`complete` flag is `len(remaining) == 0`. -/
def sessionIsComplete (s : Session) : Bool :=
  (s.phases.filter (fun p => !p.complete)).length = 0

/-- The file-level tool `session_mark_phase_complete` (`session.py` lines
159-214): given the current file content (or `none` when the file does not
exist), return the resulting file content together with the success flag.
The error paths return before `path.write_text`. -/
def markPhaseTool (file : Option (List Char)) (k : Nat) (notes : List Char) :
    Option (List Char) × Bool :=
  match file with
  | none => (none, false)
  | some content =>
    match markSession (parseSession content) k notes with
    | none => (some content, false)
    | some s' => (some (formatSession s'), true)

/-! ## Session helpers in `src/main.py` -/

/-- `parse_phases` (`main.py` lines 123-135): every line of the content is
matched independently against the phase-line pattern. -/
def parsePhasesMain (content : List Char) : List Phase :=
  (splitOnNl content).filterMap phaseLineParse

/-- `get_current_phase` (`main.py` lines 153-165) on the file content: the
first incomplete phase of `parse_phases`, or `none`. -/
def getCurrentPhaseMain (content : List Char) : Option Phase :=
  (parsePhasesMain content).find? (fun p => !p.complete)

/-- One step of `re.findall(r'\d+\. \[([x ])\]', content)`: try to match the
pattern at the current position, returning the captured mark and the number
of characters consumed. -/
def markAt (s : List Char) : Option (Char × Nat) :=
  let d := s.takeWhile Char.isDigit
  if d = [] then none
  else
    match s.drop d.length with
    | '.' :: ' ' :: '[' :: c :: ']' :: _ =>
      if c = 'x' ∨ c = ' ' then some (c, d.length + 5) else none
    | _ => none

/-- `re.findall`: non-overlapping matches, scanning left to right. -/
def findMarks (s : List Char) : List Char :=
  match s with
  | [] => []
  | c :: t =>
    match markAt (c :: t) with
    | some (m, k) => m :: findMarks (t.drop (k - 1))
    | none => findMarks t
termination_by s.length
decreasing_by
  · simp only [List.length_cons, List.length_drop]; omega
  · simp

/-- `is_session_complete` (`main.py` lines 138-150) on the file content:
a substring check for `"State: complete"`, else all phase markers `'x'`
(empty marker list is falsy). -/
def isSessionCompleteMain (content : List Char) : Bool :=
  if containsSub content (cs "State: complete") then true
  else
    let marks := findMarks content
    !marks.isEmpty && marks.all (fun m => m = 'x')

/-! ## Archival (`archive_session`, `src/main.py` lines 425-448) -/

/-- Split at every occurrence of `sep` (Python `str.split(sep)` for a
one-character separator). -/
def splitOnChar (sep : Char) : List Char → List (List Char)
  | [] => [[]]
  | c :: t =>
    if c = sep then [] :: splitOnChar sep t
    else
      match splitOnChar sep t with
      | [] => [[c]]
      | h :: r => (c :: h) :: r

/-- No two consecutive underscores. -/
def noDoubleUnderscore : List Char → Bool
  | '_' :: '_' :: _ => false
  | _ :: t => noDoubleUnderscore t
  | [] => true

/-- Digit run with optional single underscores between digits (the integer
literal body accepted by Python's `int`). -/
def digitsBody (l : List Char) : Option Nat :=
  if l ≠ [] ∧ l.head? ≠ some '_' ∧ l.getLast? ≠ some '_' ∧
      l.all (fun c => c.isDigit || c = '_') ∧ noDoubleUnderscore l then
    some (digitsToNat (l.filter Char.isDigit))
  else none

/-- Python `int(str)`: surrounding whitespace stripped, optional sign,
digits; `none` models `ValueError`. -/
def pyInt (l : List Char) : Option Int :=
  match pyStrip l with
  | '+' :: r => (digitsBody r).map Int.ofNat
  | '-' :: r => (digitsBody r).map (fun n => -(n : Int))
  | r => (digitsBody r).map Int.ofNat

/-- A file name matched by the glob `session-*.md`. -/
def sessionGlob (name : List Char) : Bool :=
  (cs "session-").isPrefixOf name && (cs ".md").isSuffixOf name

/-- `Path.stem` for a name ending in `".md"`: drop the final suffix. -/
def stemMd (name : List Char) : List Char := name.take (name.length - 3)

/-- The number the archival loop extracts from one globbed file, skipping
`session-current.md` and names whose second dash-separated piece is not an
integer (`int(f.stem.split("-")[1])` under `try/except`). -/
def archiveNum (name : List Char) : Option Int :=
  if name = cs "session-current.md" then none
  else
    match (splitOnChar '-' (stemMd name)).get? 1 with
    | none => none
    | some piece => pyInt piece

/-- `max_num` of `archive_session`: fold of `max` over the extracted numbers,
starting from 0. -/
def archiveMax (files : List (List Char)) : Int :=
  ((files.filter sessionGlob).filterMap archiveNum).foldl max 0

/-- Decimal text of an integer, as Python prints it. -/
def intToDigits (i : Int) : List Char :=
  if i < 0 then '-' :: natToDigits i.natAbs else natToDigits i.toNat

/-- `archive_session` (`main.py` lines 425-448): when the current session
document exists, the name it is renamed to; `none` (no rename, no error)
when it does not.  `files` is the listing of the tasks directory. -/
def archiveSession (currentExists : Bool) (files : List (List Char)) :
    Option (List Char) :=
  if currentExists then
    some (cs "session-" ++ intToDigits (archiveMax files + 1) ++ cs ".md")
  else none

/-! ## Registry validation and generation (`src/audit.py`) -/

/-- Lower-case a document (the effect of `re.IGNORECASE` on the ASCII
patterns used by the validator). -/
def lowerAll (l : List Char) : List Char := l.map Char.toLower

/-- Case-insensitive substring check. -/
def ciContains (s pat : List Char) : Bool :=
  containsSub (lowerAll s) (lowerAll pat)

/-- `validate_agents_md` (`audit.py` lines 110-129): the three required
section patterns are checked independently, in order; the first also accepts
the alternative heading `## Agents`.  Returns `(is_valid, issues)`. -/
def validateAgentsMd (content : List Char) : Bool × List (List Char) :=
  let issues :=
    (if ciContains content (cs "Agent Registry") ||
        ciContains content (cs "## Agents") then []
     else [cs "Missing section: Agent Registry"]) ++
    (if ciContains content (cs "Ownership Matrix") then []
     else [cs "Missing section: Ownership Matrix"]) ++
    (if ciContains content (cs "Routing Table") then []
     else [cs "Missing section: Routing Table"])
  (issues.length = 0, issues)

/-- An agent discovered in the target project (`DiscoveredAgent`).  The file
is identified by its base name (`file_path.name`). -/
structure DiscoveredAgent where
  name : List Char
  description : List Char
  fileName : List Char
  owns : List (List Char)
  neverTouches : List (List Char)
deriving Repr, DecidableEq

/-- `", ".join(...)` over back-ticked paths. -/
def joinTicked : List (List Char) → List Char
  | [] => []
  | [p] => '`' :: p ++ ['`']
  | p :: q :: r => '`' :: p ++ cs "`, " ++ joinTicked (q :: r)

/-- `"\n".join(rows)`. -/
def joinNl : List (List Char) → List Char
  | [] => []
  | [r] => r
  | r :: q :: t => r ++ '\n' :: joinNl (q :: t)

/-- One row of the agent registry table. -/
def registryRow (a : DiscoveredAgent) : List Char :=
  cs "| " ++ a.name ++ cs " | `" ++ a.fileName ++ cs "` | " ++
    a.description.take 50 ++ cs "... |"

/-- One row of the ownership matrix (`or "TBD"` for empty join). -/
def ownershipRow (a : DiscoveredAgent) : List Char :=
  let owns := joinTicked (a.owns.take 3)
  let never := joinTicked (a.neverTouches.take 3)
  cs "| `" ++ a.name ++ cs "` | " ++ (if owns = [] then cs "TBD" else owns) ++
    cs " | " ++ (if never = [] then cs "TBD" else never) ++ cs " |"

/-- One row of the routing table. -/
def routingRow (a : DiscoveredAgent) : List Char :=
  (cs "| ") ++ (if a.description = [] then a.name else a.description.take 30) ++
    cs " | `" ++ a.name ++ cs "` |"

/-- `generate_agents_md` (`audit.py` lines 132-202). -/
def generateAgentsMd (agents : List DiscoveredAgent) (projectName : List Char) :
    List Char :=
  cs "# " ++ projectName ++ cs " Agent System\n\n" ++
  cs "This document is the **single source of truth** for agent coordination.\n\n---\n\n" ++
  cs "## Agent Registry\n\n| Agent | File | Purpose |\n|-------|------|---------|\n" ++
  joinNl (agents.map registryRow) ++
  cs "\n\n---\n\n## Ownership Matrix\n\n**Each agent has EXCLUSIVE ownership of specific file paths.**\n\n" ++
  cs "| Agent | OWNS (only they modify) | NEVER touches |\n|-------|-------------------------|---------------|\n" ++
  joinNl (agents.map ownershipRow) ++
  cs "\n\n---\n\n## Routing Table\n\n| IF task involves... | SPAWN this agent |\n|---------------------|------------------|\n" ++
  joinNl (agents.map routingRow) ++
  cs "\n\n---\n\n## Dependency Graph\n\n```\n[Define execution order here]\n    │\n    ▼\nfinalize (ALWAYS last)\n```\n\n---\n\n" ++
  cs "## Notes\n\nThis AGENTS.md was auto-generated by the orchestrator.\nReview and customize the ownership matrix and routing table.\n"

/-- `generate_minimal_agents_md` (`audit.py` lines 286-343). -/
def generateMinimalAgentsMd (projectName : List Char) : List Char :=
  cs "# " ++ projectName ++ cs " Agent System\n\n" ++
  cs "This document is the **single source of truth** for agent coordination.\n\n---\n\n" ++
  cs "## Agent Registry\n\n| Agent | File | Purpose |\n|-------|------|---------|\n| (no domain agents defined) | - | - |\n\n---\n\n" ++
  cs "## Ownership Matrix\n\n| Agent | OWNS (only they modify) | NEVER touches |\n|-------|-------------------------|---------------|\n| (define domain agents) | - | - |\n\n---\n\n" ++
  cs "## Routing Table\n\n| IF task involves... | SPAWN this agent |\n|---------------------|------------------|\n| (define routing rules) | - |\n\n---\n\n" ++
  cs "## Adding Domain Agents\n\n1. Create `.claude/agents/your-agent.md` with:\n   ```markdown\n   ---\n   name: your-agent\n   description: What this agent does\n   ---\n\n   You are the [Name] Agent...\n\n   ## Files I OWN:\n   - path/to/files/\n\n   ## Files I NEVER touch:\n   - other/paths/\n   ```\n\n2. Update this AGENTS.md to register the agent\n\n---\n\n" ++
  cs "## Notes\n\nThis is a minimal template. Add domain-specific agents for your project.\n"

/-! ## Agent descriptor extraction (`parse_agent_file`, `src/audit.py`) -/

/-- Split at the first occurrence of `pat`: `(before, after)`. -/
def splitFirst (pat : List Char) (s : List Char) :
    Option (List Char × List Char) :=
  if pat.isPrefixOf s then some ([], s.drop pat.length)
  else
    match s with
    | [] => none
    | c :: t => (splitFirst pat t).map (fun x => (c :: x.1, x.2))

/-- First defined element. -/
def firstSome : List (Option α) → Option α
  | [] => none
  | some a :: _ => some a
  | none :: t => firstSome t

/-- Indices of `'\n'` within `u`, in descending order. -/
def nlIdxDesc (u : List Char) : List Nat :=
  ((List.range u.length).filter (fun i => u.get? i = some '\n')).reverse

/-- `re.match(r'^---\s*\n(.*?)\n---', content, re.DOTALL)`: after the leading
`"---"`, the engine consumes whitespace up to a newline (longest first) and
looks for the first later `"\n---"`; failing that it retries from each
earlier newline of the whitespace run. -/
def frontmatter (c : List Char) : Option (List Char) :=
  if (cs "---").isPrefixOf c then
    let rest := c.drop 3
    let u := rest.takeWhile isWs
    firstSome ((nlIdxDesc u).map
      (fun k => (splitFirst (cs "\n---") (rest.drop (k + 1))).map Prod.fst))
  else none

/-- The `for line in frontmatter.split("\n")` loop collecting the `name:` and
`description:` values (later lines overwrite earlier ones). -/
def fmFields : List (List Char) → List Char × List Char → List Char × List Char
  | [], acc => acc
  | l :: ls, (n, d) =>
    let l' := pyStrip l
    if (cs "name:").isPrefixOf l' then fmFields ls (pyStrip (l'.drop 5), d)
    else if (cs "description:").isPrefixOf l' then
      fmFields ls (n, pyStrip (l'.drop 12))
    else fmFields ls (n, d)

/-- Case-insensitive prefix test (ASCII lowering, the effect of
`re.IGNORECASE` on these literal patterns). -/
def ciPrefix : List Char → List Char → Bool
  | [], _ => true
  | _ :: _, [] => false
  | a :: as, b :: bs => a.toLower = b.toLower && ciPrefix as bs

/-- `re.search` with `re.IGNORECASE` for a literal pattern followed by the
continuation. -/
def scanForCI (pat : List Char) (cont : List Char → Option α) :
    List Char → Option α
  | [] => if ciPrefix pat [] then cont [] else none
  | c :: t =>
    ((if ciPrefix pat (c :: t) then cont ((c :: t).drop pat.length)
      else none)).orElse (fun _ => scanForCI pat cont t)

/-- `[:\s]*\n` when the following group must start with `-` or `*`:
backtracking forces the whole maximal run of colons/whitespace to be
consumed, and it must end in `'\n'`. -/
def afterColonWsNl (s : List Char) : Option (List Char) :=
  let u := s.takeWhile (fun c => isWs c || c = ':')
  if u ≠ [] ∧ u.getLast? = some '\n' then some (s.drop u.length) else none

/-- One item of `(?:[-*]\s+.+\n?)+`: the number of characters it consumes, or
`none` when no item starts here.  In the end-of-input corner the engine
backtracks into `\s+` and the final `.`-run is whitespace; it succeeds iff
the whitespace run has a non-newline character past its first character
(everything consumed there is whitespace, which the path filter discards). -/
def itemTake (s : List Char) : Option Nat :=
  match s with
  | [] => none
  | c :: t =>
    if c = '-' ∨ c = '*' then
      let u := t.takeWhile isWs
      if u = [] then none
      else
        let after := t.drop u.length
        let v := after.takeWhile (fun ch => ¬ ch = '\n')
        if v ≠ [] then
          let rest1 := after.drop v.length
          some (1 + u.length + v.length +
            (if rest1.head? = some '\n' then 1 else 0))
        else if (u.drop 1).any (fun ch => ¬ ch = '\n') then some (1 + u.length)
        else none
    else none

/-- Total length consumed by the greedy `+` over items (fuelled by the input
length; each successful item consumes at least one character, so the fuel
never runs out before the items do). -/
def itemsRunAux : Nat → List Char → Nat
  | 0, _ => 0
  | fuel + 1, s =>
    match itemTake s with
    | none => 0
    | some k => k + itemsRunAux fuel (s.drop k)

/-- Total length consumed by the greedy `+` over items. -/
def itemsRun (s : List Char) : Nat := itemsRunAux s.length s

/-- The group captured by `<label>[:\s]*\n((?:[-*]\s+.+\n?)+)` under
`re.search(..., re.IGNORECASE)`. -/
def bulletSection (pat : List Char) (content : List Char) : Option (List Char) :=
  scanForCI pat
    (fun r => (afterColonWsNl r).bind (fun r2 =>
      match itemTake r2 with
      | none => none
      | some _ => some (r2.take (itemsRun r2))))
    content

/-- Python `strip` with the back-tick character: drop back-ticks from both
ends. -/
def stripTicks (l : List Char) : List Char :=
  ((l.dropWhile (fun c => c = '`')).reverse.dropWhile (fun c => c = '`')).reverse

/-- The per-line loop over a captured bullet group: keep stripped lines
starting with `-`/`*`, left-strip the bullet characters, strip back-ticks,
drop empties. -/
def bulletPaths (group : List Char) : List (List Char) :=
  (splitOnNl group).filterMap (fun line =>
    let l' := pyStrip line
    match l'.head? with
    | some c =>
      if c = '-' ∨ c = '*' then
        let p := stripTicks (l'.dropWhile (fun ch => ch = '-' ∨ ch = '*' ∨ ch = ' '))
        if p = [] then none else some p
      else none
    | none => none)

/-- `parse_agent_file` (`audit.py` lines 50-107). -/
def parseAgentFile (fileName content : List Char) : Option DiscoveredAgent :=
  match frontmatter content with
  | none => none
  | some fm =>
    let fields := fmFields (splitOnNl fm) ([], [])
    let nm := if fields.1 = [] then stemMd fileName else fields.1
    let desc :=
      if fields.2 = [] then cs "Agent from " ++ fileName else fields.2.take 100
    some ⟨nm, desc, fileName,
      ((bulletSection (cs "Files I OWN") content).map bulletPaths).getD [],
      ((bulletSection (cs "NEVER touch") content).map bulletPaths).getD []⟩

/-! ## Audit orchestration (`audit_project`, `src/audit.py` lines 205-283) -/

/-- The transient audit snapshot (`AuditResult`). -/
structure AuditResult where
  hasClaudeDir : Bool
  hasAgentsDir : Bool
  hasAgentsMd : Bool
  agentsMdValid : Bool
  discoveredAgents : List DiscoveredAgent
  issues : List (List Char)
  actionsTaken : List (List Char)
deriving Repr, DecidableEq

/-- `AuditResult.is_ready` (`audit.py` lines 44-47). -/
def AuditResult.ready (r : AuditResult) : Bool :=
  r.hasAgentsDir && r.agentsMdValid

/-- The project state the audit touches: existence of the control
directories, the contents of the agents directory (`none` when absent), and
the project directory's base name. -/
structure ProjectFS where
  hasClaudeDir : Bool
  agentsDir : Option (List (List Char × List Char))
  hasTasksDir : Bool
  projectName : List Char
deriving Repr, DecidableEq

/-- File lookup by name in a directory listing. -/
def lookupFile (files : List (List Char × List Char)) (nm : List Char) :
    Option (List Char) :=
  (files.find? (fun e => e.1 = nm)).map Prod.snd

/-- Write (create or overwrite) a file in a directory listing: afterwards the
name maps to the new content and every other name keeps its content. -/
def writeFile (files : List (List Char × List Char)) (nm content : List Char) :
    List (List Char × List Char) :=
  (nm, content) :: files.filter (fun e => ¬ e.1 = nm)

/-- The glob `*.md`. -/
def mdGlob (name : List Char) : Bool := (cs ".md").isSuffixOf name

/-- `str.replace("-", " ")`. -/
def replaceDashSpace (l : List Char) : List Char :=
  l.map (fun c => if c = '-' then ' ' else c)

/-- `str.title()` on ASCII text: a letter is upper-cased after a non-letter,
lower-cased after a letter. -/
def pyTitle (l : List Char) : List Char :=
  go l false
where
  go : List Char → Bool → List Char
  | [], _ => []
  | c :: t, prevAlpha =>
    (if c.isAlpha then (if prevAlpha then c.toLower else c.toUpper) else c) ::
      go t c.isAlpha

/-- The discovery loop of `audit_project`: every `*.md` file of the agents
directory except `AGENTS.md` itself, parsed, unparsable files skipped. -/
def discoverAgents (dirFiles : List (List Char × List Char)) :
    List DiscoveredAgent :=
  (dirFiles.filter (fun e => mdGlob e.1 ∧ e.1 ≠ cs "AGENTS.md")).filterMap
    (fun e => parseAgentFile e.1 e.2)

/-- The registry document of a project state (present only when the agents
directory exists). -/
def agentsMdOf (fs : ProjectFS) : Option (List Char) :=
  if fs.agentsDir.isSome then lookupFile (fs.agentsDir.getD []) (cs "AGENTS.md")
  else none

/-- The `(agents_md_valid, issues)` pair recorded by the audit before any
auto-fix: the validator's answer when the registry document exists, else
invalid with the single issue `AGENTS.md not found`. -/
def registryStatus (fs : ProjectFS) : Bool × List (List Char) :=
  match agentsMdOf fs with
  | some c => validateAgentsMd c
  | none => (false, [cs "AGENTS.md not found"])

/-- `audit_project` (`audit.py` lines 205-283): flags, discovery, validation,
then the auto-fix block.  Returns the audit result and the updated project
state. -/
def auditProject (fs : ProjectFS) (autoFix : Bool) : AuditResult × ProjectFS :=
  let hasAgents := fs.agentsDir.isSome
  let dirFiles := fs.agentsDir.getD []
  let agentsMd := agentsMdOf fs
  let discovered := if hasAgents then discoverAgents dirFiles else []
  let validated := registryStatus fs
  let valid0 := validated.1
  let issues0 := validated.2
  let hasMd := agentsMd.isSome
  if autoFix then
    let act1 := if !fs.hasClaudeDir then [cs "Created .claude/ directory"] else []
    let act2 := if !hasAgents then [cs "Created .claude/agents/ directory"] else []
    let act3 := if !fs.hasTasksDir then [cs "Created .claude/tasks/ directory"] else []
    if !hasMd || !valid0 then
      let regen :=
        if discovered ≠ [] then
          (generateAgentsMd discovered (pyTitle (replaceDashSpace fs.projectName)),
           cs "Generated AGENTS.md from " ++ natToDigits discovered.length ++
             cs " discovered agents")
        else
          (generateMinimalAgentsMd fs.projectName,
           cs "Created minimal AGENTS.md template")
      (⟨true, true, true, true, discovered,
        issues0.filter (fun i => !containsSub i (cs "AGENTS.md")),
        act1 ++ act2 ++ act3 ++ [regen.2]⟩,
       ⟨true, some (writeFile dirFiles (cs "AGENTS.md") regen.1), true,
        fs.projectName⟩)
    else
      (⟨true, true, hasMd, valid0, discovered, issues0, act1 ++ act2 ++ act3⟩,
       ⟨true, some dirFiles, true, fs.projectName⟩)
  else
    (⟨fs.hasClaudeDir, hasAgents, hasMd, valid0, discovered, issues0, []⟩, fs)

/-! ## Round-trip toolkit (C1) -/

/-- The first character, if any, is not whitespace. -/
def headNonWs : List Char → Bool
  | [] => true
  | c :: _ => !isWs c

/-- The last character, if any, is not whitespace. -/
def lastNonWs (l : List Char) : Bool := headNonWs l.reverse

/-- The pattern and the text disagree at some index where both are defined,
so no continuation of the text can make the pattern a prefix of it. -/
def mismatchWithin : List Char → List Char → Bool
  | [], _ => false
  | _, [] => false
  | p :: ps, c :: t => (p != c) || mismatchWithin ps t

/-- Every start position inside the text exhibits a mismatch with the pattern
before the text runs out: a pattern occurrence can never begin inside it. -/
def blocksAll (pat : List Char) : List Char → Bool
  | [] => true
  | c :: t => mismatchWithin pat (c :: t) && blocksAll pat t

/-- The phase entries for which one formatted line re-parses to the same
entry and never disturbs the surrounding document structure: non-empty
all-non-whitespace agent, non-empty single-line description with no `'#'`
and no trailing whitespace. -/
def PhaseWF (p : Phase) : Prop :=
  p.agent ≠ [] ∧ (∀ c ∈ p.agent, isWs c = false) ∧ '#' ∉ p.agent ∧
    p.description ≠ [] ∧ '\n' ∉ p.description ∧ '#' ∉ p.description ∧
    lastNonWs p.description = true

/-- The sessions whose formatted document decodes to the same value: every
text field is non-empty and stripped, `'#'` never occurs where a later
heading scan would have to walk over it, the agent is a single
non-whitespace token, the state a non-empty word, the phase list non-empty
and per-phase well-formed, and the work log non-empty, stripped and free
of embedded `"\n## "` section breaks. -/
def SessionWF (s : Session) : Prop :=
  (s.name ≠ [] ∧ '\n' ∉ s.name ∧ '#' ∉ s.name ∧
    headNonWs s.name = true ∧ lastNonWs s.name = true) ∧
  (s.current_agent ≠ [] ∧ (∀ c ∈ s.current_agent, isWs c = false) ∧
    '#' ∉ s.current_agent) ∧
  (s.state ≠ [] ∧ ∀ c ∈ s.state, isWord c = true) ∧
  (s.user_request ≠ [] ∧ '#' ∉ s.user_request ∧
    headNonWs s.user_request = true ∧ lastNonWs s.user_request = true) ∧
  (s.phases ≠ [] ∧ ∀ p ∈ s.phases, PhaseWF p) ∧
  (s.work_log ≠ [] ∧ headNonWs s.work_log = true ∧
    lastNonWs s.work_log = true ∧
    containsSub (s.work_log ++ ['\n']) (cs "\n## ") = false)

/-- The status block that `format_session`'s template yields, as the status
regex captures it. -/
def c1Block (s : Session) : List Char :=
  (cs "- " ++ (cs "Phase: " ++ (natToDigits s.phase ++
      (cs " of " ++ natToDigits s.total_phases)))) ++
    '\n' :: ((cs "- " ++ (cs "Current Agent: " ++ s.current_agent)) ++
      '\n' :: ((cs "- " ++ (cs "State: " ++ s.state)) ++ '\n' :: []))

/-- A session document in exactly the planner-template shape the system
writes (placeholder work log included). -/
def c1InitDoc : List Char :=
  cs "# Session: n\n\n## Status\n- Phase: 1 of 2\n- Current Agent: a\n- State: pending\n\n## User Request\nr\n\n## Phases\n1. [ ] a - b\n2. [ ] c - d\n\n## Work Log\n(agents will update this)\n"

/-- A session whose work log is the empty string, the case the claim singles
out. -/
def c1EmptyLog : Session :=
  ⟨cs "n", 1, 1, cs "a", cs "pending", cs "r",
    [⟨1, false, cs "a", cs "b"⟩], []⟩

/-! ## Lemma toolkit -/

theorem markFirst_eq_none_iff (l : List Phase) (k : Nat) :
    markFirst l k = none ↔ ∀ p ∈ l, p.number ≠ k := by
  induction l with
  | nil => simp [markFirst]
  | cons p rest ih =>
    simp only [markFirst]
    by_cases hp : p.number = k
    · simp [hp]
    · simp only [hp, if_neg, List.mem_cons]
      cases h : markFirst rest k with
      | none =>
        simp only [Option.map_none']
        constructor
        · intro _ q hq
          rcases hq with rfl | hq
          · exact hp
          · exact (ih.mp h) q hq
        · intro _
          rfl
      | some x =>
        simp only [Option.map_some']
        constructor
        · intro hc
          exact absurd hc (by simp)
        · intro hall
          have : markFirst rest k = none := ih.mpr (fun q hq => hall q (Or.inr hq))
          rw [this] at h
          exact absurd h (by simp)

theorem markFirst_eq_some (l : List Phase) (k : Nat) (l' : List Phase)
    (a : List Char) (h : markFirst l k = some (l', a)) :
    ∃ i q, l[i]? = some q ∧ q.number = k ∧ a = q.agent ∧
      (∀ j r, j < i → l[j]? = some r → r.number ≠ k) ∧
      l' = l.set i { q with complete := true } := by
  induction l generalizing l' with
  | nil => simp [markFirst] at h
  | cons p rest ih =>
    simp only [markFirst] at h
    by_cases hp : p.number = k
    · rw [if_pos hp] at h
      injection h with h
      injection h with h1 h2
      refine ⟨0, p, by simp, hp, h2.symm, ?_, ?_⟩
      · intro j r hj
        omega
      · simp [← h1]
    · rw [if_neg hp] at h
      cases hr : markFirst rest k with
      | none => rw [hr] at h; simp at h
      | some x =>
        obtain ⟨xl, xa⟩ := x
        rw [hr] at h
        simp only [Option.map_some', Option.some.injEq, Prod.mk.injEq] at h
        obtain ⟨h1, h2⟩ := h
        obtain ⟨i, q, hq, hqn, ha, hbefore, hset⟩ :=
          ih xl (by rw [hr, h2])
        refine ⟨i + 1, q, by simpa using hq, hqn, ha, ?_, ?_⟩
        · intro j r hj hr'
          cases j with
          | zero =>
            simp only [List.getElem?_cons_zero, Option.some.injEq] at hr'
            rw [← hr']
            exact hp
          | succ j' =>
            simp only [List.getElem?_cons_succ] at hr'
            exact hbefore j' r (by omega) hr'
        · rw [← h1, hset]
          rfl

theorem markFirst_map_number (l : List Phase) (k : Nat) (l' : List Phase)
    (a : List Char) (h : markFirst l k = some (l', a)) :
    l'.map Phase.number = l.map Phase.number ∧
      l'.map Phase.agent = l.map Phase.agent := by
  induction l generalizing l' with
  | nil => simp [markFirst] at h
  | cons p rest ih =>
    simp only [markFirst] at h
    by_cases hp : p.number = k
    · rw [if_pos hp] at h
      injection h with h
      injection h with h1 _h2
      rw [← h1]
      simp [hp]
    · rw [if_neg hp] at h
      cases hr : markFirst rest k with
      | none => rw [hr] at h; simp at h
      | some x =>
        obtain ⟨xl, xa⟩ := x
        rw [hr] at h
        simp only [Option.map_some', Option.some.injEq, Prod.mk.injEq] at h
        obtain ⟨h1, h2⟩ := h
        have := ih xl (by rw [hr, h2])
        rw [← h1]
        simp [this.1, this.2]

theorem find?_first {α} (p : α → Bool) (l : List α) (q : α)
    (h : l.find? p = some q) :
    ∃ i, l[i]? = some q ∧ p q = true ∧
      ∀ (j : Nat) (r : α), j < i → l[j]? = some r → p r = false := by
  induction l with
  | nil => simp at h
  | cons x rest ih =>
    cases hx : p x with
    | true =>
      simp only [List.find?_cons, hx, Option.some.injEq] at h
      refine ⟨0, by simp [h], h ▸ hx, ?_⟩
      intro j r hj
      omega
    | false =>
      simp only [List.find?_cons, hx] at h
      obtain ⟨i, hi, hq, hbefore⟩ := ih h
      refine ⟨i + 1, by simpa using hi, hq, ?_⟩
      intro j r hj hr
      cases j with
      | zero =>
        simp only [List.getElem?_cons_zero, Option.some.injEq] at hr
        rw [← hr]
        exact hx
      | succ j' =>
        simp only [List.getElem?_cons_succ] at hr
        exact hbefore j' r (by omega) hr

theorem find?_min_number (l : List Phase)
    (hs : (l.map Phase.number).Pairwise (fun a b => a ≤ b)) (q : Phase)
    (hq : l.find? (fun p => !p.complete) = some q) :
    ∀ p ∈ l, p.complete = false → q.number ≤ p.number := by
  induction l with
  | nil => simp at hq
  | cons x rest ih =>
    rw [List.map_cons, List.pairwise_cons] at hs
    cases hxc : x.complete with
    | false =>
      simp only [List.find?_cons, hxc, Bool.not_false, Option.some.injEq] at hq
      intro p hp _
      rcases List.mem_cons.mp hp with h | h
      · rw [h, ← hq]
      · rw [← hq]
        exact hs.1 p.number (List.mem_map_of_mem Phase.number h)
    | true =>
      simp only [List.find?_cons, hxc, Bool.not_true] at hq
      intro p hp hpc
      rcases List.mem_cons.mp hp with h | h
      · rw [h, hxc] at hpc
        exact absurd hpc (by simp)
      · exact ih hs.2 hq p h hpc

/-! ## Claim C2 -/

/-- A parsed session with an empty phase list and state `pending`. -/
def c2Doc : List Char :=
  cs "# Session: x\n\n## Status\n- Phase: 0 of 0\n- Current Agent: a\n- State: pending\n\n## User Request\nr\n\n## Work Log\nw\n"

/-- C2 counterexample: `session_is_complete` reports `complete = true` on a
parsed session whose phase list is empty and whose state is `pending`, not
`complete` — contradicting the claimed biconditional, which requires a
non-empty phase list or state `complete`. -/
theorem c2_counterexample :
    sessionIsComplete (parseSession c2Doc) = true ∧
    (parseSession c2Doc).phases = [] ∧
    (parseSession c2Doc).state = cs "pending" ∧
    ¬ (((parseSession c2Doc).phases ≠ [] ∧
          ∀ p ∈ (parseSession c2Doc).phases, p.complete = true) ∨
        (parseSession c2Doc).state = cs "complete") := by
  decide

/-- C2 amended: `session_is_complete` returns true iff every phase's flag is
true — vacuously true for an empty phase list — and it ignores the `state`
field entirely (the `state`-substring check exists only in `main.py`'s
`is_session_complete`). -/
theorem c2_is_complete_amended (s : Session) :
    sessionIsComplete s = true ↔ ∀ p ∈ s.phases, p.complete = true := by
  simp only [sessionIsComplete, decide_eq_true_eq, List.length_eq_zero,
    List.filter_eq_nil_iff]
  constructor
  · intro h p hp
    have := h p hp
    simpa using this
  · intro h p hp
    simp [h p hp]

/-- C2 witness: a session whose single phase is complete is reported
complete by the amended characterisation. -/
theorem c2_witness :
    sessionIsComplete
      ⟨[], 0, 0, [], cs "unknown", [], [⟨1, true, cs "a", cs "b"⟩], []⟩ =
      true :=
  (c2_is_complete_amended
    ⟨[], 0, 0, [], cs "unknown", [], [⟨1, true, cs "a", cs "b"⟩], []⟩).mpr
    (by decide)

/-! ## Claim C10 -/

/-- C10: `session_mark_phase_complete` is atomic on error — with no session
file it reports the error without creating a file, and when the referenced
phase number is absent from the parsed document the file content is returned
byte-for-byte unchanged (the error return precedes the write). -/
theorem c10_mark_error_atomic :
    (∀ (k : Nat) (notes : List Char), markPhaseTool none k notes = (none, false)) ∧
    (∀ (content : List Char) (k : Nat) (notes : List Char),
      (∀ p ∈ (parseSession content).phases, p.number ≠ k) →
      markPhaseTool (some content) k notes = (some content, false)) := by
  refine ⟨fun k notes => rfl, fun content k notes h => ?_⟩
  have hm : markFirst (parseSession content).phases k = none :=
    (markFirst_eq_none_iff _ k).mpr h
  simp [markPhaseTool, markSession, hm]

/-- A session document with a single phase numbered 1. -/
def c10Doc : List Char := cs "## Phases\n1. [ ] a - b\n"

/-- C10 witness: marking the absent phase 5 leaves the concrete document
unchanged. -/
theorem c10_witness :
    markPhaseTool (some c10Doc) 5 (cs "n") = (some c10Doc, false) :=
  c10_mark_error_atomic.2 c10Doc 5 (cs "n") (by decide)

/-! ## Claim C3 -/

/-- C3: `MarkComplete` fails exactly when no phase has the given number; on
success it sets the first phase with that number complete, then either points
the status fields at the first remaining incomplete phase with state
`pending`, or sets state `complete` and agent `none`; non-empty notes are
appended as an entry attributed to the completed phase's agent, and an empty
or placeholder-only log is initialised with the entry instead. -/
theorem c3_mark_phase_complete (s : Session) (k : Nat) (notes : List Char) :
    (markSession s k notes = none ↔ ∀ p ∈ s.phases, p.number ≠ k) ∧
    (∀ s', markSession s k notes = some s' →
      ∃ i q, s.phases[i]? = some q ∧ q.number = k ∧
        (∀ (j : Nat) (r : Phase), j < i → s.phases[j]? = some r →
          r.number ≠ k) ∧
        s'.phases = s.phases.set i { q with complete := true } ∧
        ((∃ r, getNextPhase s' = some r ∧ s'.phase = r.number ∧
            s'.current_agent = r.agent ∧ s'.state = cs "pending") ∨
          (getNextPhase s' = none ∧ s'.state = cs "complete" ∧
            s'.current_agent = cs "none")) ∧
        s'.name = s.name ∧ s'.user_request = s.user_request ∧
        s'.total_phases = s.total_phases ∧
        (notes = [] → s'.work_log = s.work_log) ∧
        (notes ≠ [] →
          s'.work_log =
            (if s.work_log ≠ [] ∧ s.work_log ≠ workLogPlaceholder
              then s.work_log ++ cs "\n\n" else []) ++
            (cs "### Phase " ++ natToDigits k ++ cs " (" ++ q.agent ++
              cs ")\n" ++ notes))) := by
  constructor
  · cases hm : markFirst s.phases k with
    | none =>
      simp only [markSession, hm]
      exact iff_of_true trivial ((markFirst_eq_none_iff s.phases k).mp hm)
    | some x =>
      obtain ⟨l', a⟩ := x
      simp only [markSession, hm]
      obtain ⟨i, q, hq, hqn, -, -, -⟩ := markFirst_eq_some s.phases k l' a hm
      constructor
      · intro h
        exfalso
        cases hn : l'.find? (fun p => !p.complete) <;> simp only [hn] at h <;>
          split at h <;> simp at h
      · intro h
        exact absurd hqn (h q (List.getElem?_mem hq))
  · intro s' h
    cases hm : markFirst s.phases k with
    | none => simp [markSession, hm] at h
    | some x =>
      obtain ⟨l', a⟩ := x
      simp only [markSession, hm] at h
      obtain ⟨i, q, hq, hqn, ha, hbefore, hset⟩ :=
        markFirst_eq_some s.phases k l' a hm
      refine ⟨i, q, hq, hqn, hbefore, ?_⟩
      cases hn : l'.find? (fun p => !p.complete) with
      | some r =>
        simp only [hn] at h
        by_cases hnotes : notes = []
        · rw [if_pos hnotes] at h
          injection h with h
          subst h
          refine ⟨hset, Or.inl ⟨r, by simpa [getNextPhase] using hn,
            rfl, rfl, rfl⟩, rfl, rfl, rfl, fun _ => rfl, fun hne => absurd hnotes hne⟩
        · rw [if_neg hnotes] at h
          injection h with h
          subst h
          refine ⟨hset, Or.inl ⟨r, by simpa [getNextPhase] using hn,
            rfl, rfl, rfl⟩, rfl, rfl, rfl, fun he => absurd he hnotes, fun _ => ?_⟩
          rw [ha]
          split
          · simp
          · simp
      | none =>
        simp only [hn] at h
        by_cases hnotes : notes = []
        · rw [if_pos hnotes] at h
          injection h with h
          subst h
          refine ⟨hset, Or.inr ⟨by simpa [getNextPhase] using hn, rfl, rfl⟩,
            rfl, rfl, rfl, fun _ => rfl, fun hne => absurd hnotes hne⟩
        · rw [if_neg hnotes] at h
          injection h with h
          subst h
          refine ⟨hset, Or.inr ⟨by simpa [getNextPhase] using hn, rfl, rfl⟩,
            rfl, rfl, rfl, fun he => absurd he hnotes, fun _ => ?_⟩
          rw [ha]
          split
          · simp
          · simp

/-- A two-phase pending session. -/
def c3Sess : Session :=
  ⟨cs "n", 1, 2, cs "a", cs "pending", cs "req",
    [⟨1, false, cs "a", cs "one"⟩, ⟨2, false, cs "b", cs "two"⟩], []⟩

/-- The session after marking phase 1 of `c3Sess` complete with notes. -/
def c3SessAfter : Session :=
  ⟨cs "n", 2, 2, cs "b", cs "pending", cs "req",
    [⟨1, true, cs "a", cs "one"⟩, ⟨2, false, cs "b", cs "two"⟩],
    cs "### Phase 1 (a)\ndone"⟩

/-- C3 witness: marking phase 1 of the concrete two-phase session. -/
theorem c3_witness :
    ∃ i q, c3Sess.phases[i]? = some q ∧ q.number = 1 ∧
      (∀ (j : Nat) (r : Phase), j < i → c3Sess.phases[j]? = some r →
        r.number ≠ 1) ∧
      c3SessAfter.phases = c3Sess.phases.set i { q with complete := true } ∧
      ((∃ r, getNextPhase c3SessAfter = some r ∧
          c3SessAfter.phase = r.number ∧
          c3SessAfter.current_agent = r.agent ∧
          c3SessAfter.state = cs "pending") ∨
        (getNextPhase c3SessAfter = none ∧ c3SessAfter.state = cs "complete" ∧
          c3SessAfter.current_agent = cs "none")) ∧
      c3SessAfter.name = c3Sess.name ∧
      c3SessAfter.user_request = c3Sess.user_request ∧
      c3SessAfter.total_phases = c3Sess.total_phases ∧
      (cs "done" = [] → c3SessAfter.work_log = c3Sess.work_log) ∧
      (cs "done" ≠ [] →
        c3SessAfter.work_log =
          (if c3Sess.work_log ≠ [] ∧ c3Sess.work_log ≠ workLogPlaceholder
            then c3Sess.work_log ++ cs "\n\n" else []) ++
          (cs "### Phase " ++ natToDigits 1 ++ cs " (" ++ q.agent ++
            cs ")\n" ++ cs "done")) :=
  (c3_mark_phase_complete c3Sess 1 (cs "done")).2 c3SessAfter (by decide)

/-! ## Claim C4 -/

theorem markSession_phases_from_markFirst (s : Session) (k : Nat)
    (notes : List Char) (s' : Session) (h : markSession s k notes = some s') :
    markFirst s.phases k = some (s'.phases, (markFirst s.phases k).elim [] Prod.snd) := by
  cases hm : markFirst s.phases k with
  | none => simp [markSession, hm] at h
  | some x =>
    obtain ⟨l', a⟩ := x
    simp only [markSession, hm] at h
    simp only [Option.elim]
    cases hn : l'.find? (fun p => !p.complete) with
    | some r =>
      simp only [hn] at h
      split at h <;> (injection h with h; subst h; rfl)
    | none =>
      simp only [hn] at h
      split at h <;> (injection h with h; subst h; rfl)

/-- An unsorted all-incomplete session: phases numbered 3, 2, 9. -/
def c4Sess : Session :=
  ⟨[], 0, 0, [], cs "unknown", [],
    [⟨3, false, cs "x", cs "d"⟩, ⟨2, false, cs "y", cs "d"⟩,
      ⟨9, false, cs "z", cs "d"⟩], []⟩

/-- `c4Sess` after marking phase 9 complete. -/
def c4SessAfter : Session :=
  ⟨[], 3, 0, cs "x", cs "pending", [],
    [⟨3, false, cs "x", cs "d"⟩, ⟨2, false, cs "y", cs "d"⟩,
      ⟨9, true, cs "z", cs "d"⟩], []⟩

/-- C4 counterexample: after `MarkComplete(s, 9, "")` on a session whose
phase numbers appear in the order 3, 2, 9, `GetCurrentPhase` returns the
phase numbered 3 — the first incomplete phase in list order — even though an
incomplete phase numbered 2 remains, so it is not the lowest-numbered
incomplete phase. -/
theorem c4_counterexample :
    markSession c4Sess 9 [] = some c4SessAfter ∧
    getNextPhase c4SessAfter = some ⟨3, false, cs "x", cs "d"⟩ ∧
    (⟨2, false, cs "y", cs "d"⟩ : Phase) ∈ c4SessAfter.phases ∧
    ¬ ((3 : Nat) ≤ 2) := by
  decide

/-- C4 amended: `GetCurrentPhase` returns the first phase in list order with
`complete=false` (`none` exactly when every phase is complete, in particular
for an empty list), and after a successful `MarkComplete` it returns the
lowest-numbered incomplete phase provided the phase numbers are ascending in
list order. -/
theorem c4_current_phase_amended :
    (∀ s, getNextPhase s = none ↔ ∀ p ∈ s.phases, p.complete = true) ∧
    (∀ s q, getNextPhase s = some q → q.complete = false ∧
      ∃ i, s.phases[i]? = some q ∧
        ∀ (j : Nat) (r : Phase), j < i → s.phases[j]? = some r →
          r.complete = true) ∧
    (∀ s k notes s' q,
      (s.phases.map Phase.number).Pairwise (fun a b => a ≤ b) →
      markSession s k notes = some s' → getNextPhase s' = some q →
      ∀ p ∈ s'.phases, p.complete = false → q.number ≤ p.number) := by
  refine ⟨?_, ?_, ?_⟩
  · intro s
    simp [getNextPhase, List.find?_eq_none]
  · intro s q h
    obtain ⟨i, hi, hq, hbefore⟩ := find?_first _ _ _ h
    refine ⟨by simpa using hq, i, hi, ?_⟩
    intro j r hj hr
    have := hbefore j r hj hr
    simpa using this
  · intro s k notes s' q hs hm hq
    have hmf := markSession_phases_from_markFirst s k notes s' hm
    have hmap := markFirst_map_number s.phases k s'.phases _ hmf
    apply find?_min_number s'.phases _ q hq
    rw [hmap.1]
    exact hs

/-- A sorted two-phase session: phases numbered 2 and 5, both incomplete. -/
def c4wSess : Session :=
  ⟨[], 0, 0, [], cs "unknown", [],
    [⟨2, false, cs "x", cs "d"⟩, ⟨5, false, cs "y", cs "d"⟩], []⟩

/-- `c4wSess` after marking phase 2 complete. -/
def c4wSessAfter : Session :=
  ⟨[], 5, 0, cs "y", cs "pending", [],
    [⟨2, true, cs "x", cs "d"⟩, ⟨5, false, cs "y", cs "d"⟩], []⟩

/-- C4 witness: on the sorted session, after marking phase 2 the returned
phase numbered 5 is minimal among incomplete phases. -/
theorem c4_witness : (5 : Nat) ≤ 5 :=
  c4_current_phase_amended.2.2 c4wSess 2 [] c4wSessAfter
    ⟨5, false, cs "y", cs "d"⟩ (by decide) (by decide) (by decide)
    ⟨5, false, cs "y", cs "d"⟩ (by decide) (by decide)

/-! ## Claim C5 -/

theorem foldl_max_ge (l : List Int) :
    ∀ a, a ≤ l.foldl max a ∧ ∀ n ∈ l, n ≤ l.foldl max a := by
  induction l with
  | nil => intro a; simp
  | cons x rest ih =>
    intro a
    simp only [List.foldl_cons]
    refine ⟨le_trans (le_max_left a x) (ih (max a x)).1, ?_⟩
    intro n hn
    rcases List.mem_cons.mp hn with h | h
    · subst h
      exact le_trans (le_max_right a n) (ih (max a n)).1
    · exact (ih (max a x)).2 n h

theorem foldl_max_le (l : List Int) (b : Int) :
    ∀ a, a ≤ b → (∀ n ∈ l, n ≤ b) → l.foldl max a ≤ b := by
  induction l with
  | nil => intro a ha _; simpa using ha
  | cons x rest ih =>
    intro a ha h
    simp only [List.foldl_cons]
    exact ih _ (max_le ha (h x (List.mem_cons_self x rest)))
      (fun n hn => h n (List.mem_cons_of_mem x hn))

/-- C5: archiving with no current session document is a no-op; with a current
document it renames to `session-(k+1).md` where `k` is the maximum numeric
suffix among the globbed archives (in any order, with any gaps), or to
`session-1.md` when no numbered archive exists. -/
theorem c5_archive_numbering :
    (∀ files, archiveSession false files = none) ∧
    (∀ files (k : Nat),
      (k : Int) ∈ (files.filter sessionGlob).filterMap archiveNum →
      (∀ n ∈ (files.filter sessionGlob).filterMap archiveNum, n ≤ (k : Int)) →
      archiveSession true files =
        some (cs "session-" ++ natToDigits (k + 1) ++ cs ".md")) ∧
    (∀ files, (files.filter sessionGlob).filterMap archiveNum = [] →
      archiveSession true files = some (cs "session-1.md")) := by
  refine ⟨fun files => rfl, ?_, ?_⟩
  · intro files k hk hub
    have hmax : archiveMax files = (k : Int) := by
      apply le_antisymm
      · exact foldl_max_le _ _ 0 (by exact_mod_cast Nat.zero_le k) hub
      · exact (foldl_max_ge _ 0).2 _ hk
    have hpos : ((k : Int) + 1).toNat = k + 1 := by omega
    simp [archiveSession, hmax, intToDigits, hpos, show ¬((k : Int) + 1 < 0) by omega]
  · intro files hnil
    have hmax : archiveMax files = 0 := by
      unfold archiveMax
      rw [hnil]
      rfl
    simp only [archiveSession, hmax, if_pos]
    rfl

/-- C5 witness: archiving with existing archives numbered 3 and 1 (plus
non-matching names) produces `session-4.md`, and the no-session call is a
no-op on the same directory. -/
theorem c5_witness :
    archiveSession true
      [cs "session-current.md", cs "session-3.md", cs "notes.txt",
        cs "session-1.md", cs "session-abc.md"] = some (cs "session-4.md") ∧
    archiveSession false
      [cs "session-current.md", cs "session-3.md", cs "notes.txt",
        cs "session-1.md", cs "session-abc.md"] = none := by
  constructor
  · have h := c5_archive_numbering.2.1
      [cs "session-current.md", cs "session-3.md", cs "notes.txt",
        cs "session-1.md", cs "session-abc.md"] 3 (by decide) (by decide)
    simpa using h
  · exact c5_archive_numbering.1 _

/-! ## Claim C6 -/

/-- C6: the validator checks the three sections independently (each absent
section contributes its own issue, regardless of the others), `ok` is true
iff the issue list is empty, and on a document having only the Agent
Registry section the issue list has exactly the two entries naming the
Ownership Matrix and the Routing Table. -/
theorem c6_validator_completeness :
    (∀ content,
      (validateAgentsMd content).1 = true ↔ (validateAgentsMd content).2 = []) ∧
    (∀ content,
      (ciContains content (cs "Agent Registry") ||
        ciContains content (cs "## Agents")) = true →
      ciContains content (cs "Ownership Matrix") = false →
      ciContains content (cs "Routing Table") = false →
      (validateAgentsMd content).2 =
        [cs "Missing section: Ownership Matrix",
          cs "Missing section: Routing Table"] ∧
      (validateAgentsMd content).1 = false) ∧
    (∀ content,
      ((cs "Missing section: Agent Registry") ∈ (validateAgentsMd content).2 ↔
        (ciContains content (cs "Agent Registry") ||
          ciContains content (cs "## Agents")) = false) ∧
      ((cs "Missing section: Ownership Matrix") ∈ (validateAgentsMd content).2 ↔
        ciContains content (cs "Ownership Matrix") = false) ∧
      ((cs "Missing section: Routing Table") ∈ (validateAgentsMd content).2 ↔
        ciContains content (cs "Routing Table") = false)) := by
  refine ⟨?_, ?_, ?_⟩
  · intro content
    cases h1 : (ciContains content (cs "Agent Registry") ||
        ciContains content (cs "## Agents")) <;>
      cases h2 : ciContains content (cs "Ownership Matrix") <;>
      cases h3 : ciContains content (cs "Routing Table") <;>
      simp [validateAgentsMd, h1, h2, h3]
  · intro content h1 h2 h3
    simp [validateAgentsMd, h1, h2, h3]
  · intro content
    cases h1 : (ciContains content (cs "Agent Registry") ||
        ciContains content (cs "## Agents")) <;>
      cases h2 : ciContains content (cs "Ownership Matrix") <;>
      cases h3 : ciContains content (cs "Routing Table") <;>
      simp [validateAgentsMd, h1, h2, h3] <;> decide

/-- C6 witness: a document containing only an Agent Registry heading yields
exactly the two issues naming the missing sections, with `ok = false`. -/
theorem c6_witness :
    (validateAgentsMd (cs "## Agent Registry\n")).2 =
      [cs "Missing section: Ownership Matrix",
        cs "Missing section: Routing Table"] ∧
    (validateAgentsMd (cs "## Agent Registry\n")).1 = false :=
  c6_validator_completeness.2.1 (cs "## Agent Registry\n") (by decide)
    (by decide) (by decide)

/-! ## Claim C9 -/

theorem isPrefixOf_append_ext (p x y : List Char) (h : p.isPrefixOf x = true) :
    p.isPrefixOf (x ++ y) = true := by
  induction p generalizing x with
  | nil => simp [List.isPrefixOf]
  | cons c p' ih =>
    cases x with
    | nil => simp [List.isPrefixOf] at h
    | cons d x' =>
      simp only [List.cons_append, List.isPrefixOf_cons₂] at h ⊢
      simp only [Bool.and_eq_true] at h ⊢
      exact ⟨h.1, ih x' h.2⟩

theorem containsSub_append_right (p a b : List Char)
    (h : containsSub b p = true) : containsSub (a ++ b) p = true := by
  induction a with
  | nil => simpa using h
  | cons c a' ih =>
    rw [List.cons_append, containsSub]
    split
    · rfl
    · exact ih

theorem containsSub_append_left (p a b : List Char)
    (h : containsSub a p = true) : containsSub (a ++ b) p = true := by
  induction a with
  | nil =>
    rw [containsSub] at h
    split at h
    · rename_i hp
      have : p = [] := by
        cases p with
        | nil => rfl
        | cons c t => simp [List.isPrefixOf] at hp
      subst this
      cases b with
      | nil => simp [containsSub, List.isPrefixOf]
      | cons d b' => simp [containsSub, List.isPrefixOf]
    · simp at h
  | cons c a' ih =>
    rw [containsSub] at h
    rw [List.cons_append, containsSub]
    split at h
    · rename_i hp
      have hext := isPrefixOf_append_ext p (c :: a') b hp
      rw [List.cons_append] at hext
      rw [if_pos hext]
    · split
      · rfl
      · exact ih h

theorem ciContains_append_right (p a b : List Char)
    (h : ciContains b p = true) : ciContains (a ++ b) p = true := by
  unfold ciContains lowerAll at h ⊢
  rw [List.map_append]
  exact containsSub_append_right _ _ _ h

theorem ciContains_append_left (p a b : List Char)
    (h : ciContains a p = true) : ciContains (a ++ b) p = true := by
  unfold ciContains lowerAll at h ⊢
  rw [List.map_append]
  exact containsSub_append_left _ _ _ h

/-- C9: for every descriptor list and project name the generated registry
document passes validation, and likewise the minimal template for every
project name (in particular with no descriptors at all). -/
theorem c9_generated_registry_valid :
    (∀ agents projectName,
      (validateAgentsMd (generateAgentsMd agents projectName)).1 = true) ∧
    (∀ projectName,
      (validateAgentsMd (generateMinimalAgentsMd projectName)).1 = true) := by
  constructor
  · intro agents nm
    have h1 : ciContains (generateAgentsMd agents nm) (cs "Agent Registry") = true := by
      unfold generateAgentsMd
      apply ciContains_append_left
      apply ciContains_append_left
      apply ciContains_append_left
      apply ciContains_append_left
      apply ciContains_append_left
      apply ciContains_append_left
      apply ciContains_append_left
      apply ciContains_append_left
      apply ciContains_append_right
      decide
    have h2 : ciContains (generateAgentsMd agents nm) (cs "Ownership Matrix") = true := by
      unfold generateAgentsMd
      apply ciContains_append_left
      apply ciContains_append_left
      apply ciContains_append_left
      apply ciContains_append_left
      apply ciContains_append_left
      apply ciContains_append_left
      apply ciContains_append_right
      decide
    have h3 : ciContains (generateAgentsMd agents nm) (cs "Routing Table") = true := by
      unfold generateAgentsMd
      apply ciContains_append_left
      apply ciContains_append_left
      apply ciContains_append_left
      apply ciContains_append_right
      decide
    simp [validateAgentsMd, h1, h2, h3]
  · intro nm
    have h1 : ciContains (generateMinimalAgentsMd nm) (cs "Agent Registry") = true := by
      unfold generateMinimalAgentsMd
      apply ciContains_append_left
      apply ciContains_append_left
      apply ciContains_append_left
      apply ciContains_append_left
      apply ciContains_append_right
      decide
    have h2 : ciContains (generateMinimalAgentsMd nm) (cs "Ownership Matrix") = true := by
      unfold generateMinimalAgentsMd
      apply ciContains_append_left
      apply ciContains_append_left
      apply ciContains_append_left
      apply ciContains_append_right
      decide
    have h3 : ciContains (generateMinimalAgentsMd nm) (cs "Routing Table") = true := by
      unfold generateMinimalAgentsMd
      apply ciContains_append_left
      apply ciContains_append_left
      apply ciContains_append_right
      decide
    simp [validateAgentsMd, h1, h2, h3]

/-- C9 witness: the minimal template for a concrete project name passes
validation. -/
theorem c9_witness :
    (validateAgentsMd (generateMinimalAgentsMd (cs "proj"))).1 = true :=
  c9_generated_registry_valid.2 (cs "proj")

/-! ## Claim C7 -/

/-- A project state whose registry document exists but is invalid. -/
def c7FS : ProjectFS := ⟨true, some [(cs "AGENTS.md", cs "junk")], true, cs "proj"⟩

/-- C7 counterexample: with an invalid registry and auto-fix enabled, the
audit regenerates the registry but the returned issue list still contains the
per-section `Missing section` issues recorded by validation — the clearing
filter only removes issues containing the text `AGENTS.md`. -/
theorem c7_counterexample :
    (registryStatus c7FS).1 = false ∧
    (auditProject c7FS true).1.issues =
      [cs "Missing section: Agent Registry",
        cs "Missing section: Ownership Matrix",
        cs "Missing section: Routing Table"] := by
  decide

theorem lookupFile_writeFile (files : List (List Char × List Char))
    (nm c : List Char) : lookupFile (writeFile files nm c) nm = some c := by
  simp [lookupFile, writeFile, List.find?_cons]

/-- C7 amended: without auto-fix, `is_ready` is true iff the agents directory
exists and the registry document validates.  With auto-fix the result is
always ready; when the registry was missing or invalid the registry is
regenerated (from the discovered descriptors if any exist, else the minimal
template) and the issue list keeps exactly the previously recorded issues not
containing `AGENTS.md` — so the `AGENTS.md not found` issue is cleared (an
absent registry leaves an empty issue list) but the per-section
`Missing section` issues of an invalid registry remain. -/
theorem c7_audit_autofix :
    (∀ fs, (auditProject fs false).1.ready =
      (fs.agentsDir.isSome && (registryStatus fs).1)) ∧
    (∀ fs, (auditProject fs true).1.ready = true) ∧
    (∀ fs, (registryStatus fs).1 = false →
      (auditProject fs true).1.issues =
        (registryStatus fs).2.filter (fun i => !containsSub i (cs "AGENTS.md")) ∧
      lookupFile ((auditProject fs true).2.agentsDir.getD []) (cs "AGENTS.md") =
        some (if (if fs.agentsDir.isSome then
                    discoverAgents (fs.agentsDir.getD []) else []) ≠ [] then
                generateAgentsMd
                  (if fs.agentsDir.isSome then
                    discoverAgents (fs.agentsDir.getD []) else [])
                  (pyTitle (replaceDashSpace fs.projectName))
              else generateMinimalAgentsMd fs.projectName)) ∧
    (∀ fs, agentsMdOf fs = none → (auditProject fs true).1.issues = []) := by
  refine ⟨?_, ?_, ?_, ?_⟩
  · intro fs
    simp [auditProject, AuditResult.ready]
  · intro fs
    cases hv : (registryStatus fs).1 <;>
      cases hm : (agentsMdOf fs).isSome <;>
      simp [auditProject, AuditResult.ready, hv, hm]
  · intro fs hv
    cases hm : (agentsMdOf fs).isSome
    · refine ⟨?_, ?_⟩
      · simp [auditProject, hv, hm]
      · simp only [auditProject, hv, hm]
        simp [lookupFile_writeFile]
        split <;> rfl
    · refine ⟨?_, ?_⟩
      · simp [auditProject, hv, hm]
      · simp only [auditProject, hv, hm]
        simp [lookupFile_writeFile]
        split <;> rfl
  · intro fs hm
    have hv : (registryStatus fs).1 = false := by
      simp [registryStatus, hm]
    have hm' : (agentsMdOf fs).isSome = false := by
      simp [hm]
    have hiss : (auditProject fs true).1.issues =
        (registryStatus fs).2.filter (fun i => !containsSub i (cs "AGENTS.md")) := by
      simp [auditProject, hv, hm']
    rw [hiss, show (registryStatus fs).2 = [cs "AGENTS.md not found"] from
      by simp [registryStatus, hm]]
    decide

/-- C7 witness: auditing an entirely empty project state with auto-fix
yields an empty issue list and a ready result. -/
theorem c7_witness :
    (auditProject ⟨false, none, false, cs "p"⟩ true).1.issues = [] ∧
    (auditProject ⟨false, none, false, cs "p"⟩ true).1.ready = true :=
  ⟨c7_audit_autofix.2.2.2 ⟨false, none, false, cs "p"⟩ (by decide),
   c7_audit_autofix.2.1 ⟨false, none, false, cs "p"⟩⟩

/-! ## Claim C8 -/

theorem splitOnNl_ne_nil (s : List Char) : splitOnNl s ≠ [] := by
  match s with
  | [] => simp [splitOnNl]
  | c :: t =>
    rw [splitOnNl]
    split
    · simp
    · split
      · simp
      · simp

theorem splitOnNl_no_nl (s : List Char) : ∀ l ∈ splitOnNl s, '\n' ∉ l := by
  match s with
  | [] =>
    intro l hl
    simp [splitOnNl] at hl
    simp [hl]
  | c :: t =>
    intro l hl
    rw [splitOnNl] at hl
    by_cases hc : c = '\n'
    · rw [if_pos hc] at hl
      rcases List.mem_cons.mp hl with h | h
      · simp [h]
      · exact splitOnNl_no_nl t l h
    · rw [if_neg hc] at hl
      cases hsp : splitOnNl t with
      | nil => exact absurd hsp (splitOnNl_ne_nil t)
      | cons h r =>
        rw [hsp] at hl
        rcases List.mem_cons.mp hl with h' | h'
        · subst h'
          intro hmem
          rcases List.mem_cons.mp hmem with h'' | h''
          · exact hc h''.symm
          · exact splitOnNl_no_nl t h (hsp ▸ List.mem_cons_self h r) h''
        · exact splitOnNl_no_nl t l (hsp ▸ List.mem_cons_of_mem h h')

theorem splitOnNl_line (l : List Char) (hl : '\n' ∉ l) (rest : List Char) :
    splitOnNl (l ++ '\n' :: rest) = l :: splitOnNl rest := by
  induction l with
  | nil => simp [splitOnNl]
  | cons c t ih =>
    have hc : c ≠ '\n' := fun h => hl (h ▸ List.mem_cons_self c t)
    have ht : '\n' ∉ t := fun h => hl (List.mem_cons_of_mem c h)
    rw [List.cons_append, splitOnNl, if_neg hc, ih ht]

theorem orElse_some {α} (a : α) (f : Unit → Option α) :
    (some a).orElse f = some a := rfl

theorem orElse_none {α} (f : Unit → Option α) :
    (none : Option α).orElse f = f () := rfl

theorem scanStep_some_exists {α} (pat : List Char)
    (cont : List Char → Option α) (s : List Char) (a : α)
    (h : scanStep pat cont s = some a) : ∃ r, cont r = some a := by
  rw [scanStep] at h
  split at h
  · exact ⟨_, h⟩
  · simp at h

theorem scanFor_some_exists {α} (pat : List Char) (cont : List Char → Option α)
    (s : List Char) (a : α) (h : scanFor pat cont s = some a) :
    ∃ r, cont r = some a := by
  match s with
  | [] =>
    rw [scanFor] at h
    exact scanStep_some_exists pat cont [] a h
  | c :: t =>
    rw [scanFor] at h
    cases hstep : scanStep pat cont (c :: t) with
    | some b =>
      rw [hstep, orElse_some] at h
      injection h with hba
      subst hba
      exact scanStep_some_exists pat cont (c :: t) b hstep
    | none =>
      rw [hstep, orElse_none] at h
      exact scanFor_some_exists pat cont t a h

/-- The concatenation of newline-terminated lines. -/
def joinLines (ls : List (List Char)) : List Char :=
  ls.foldr (fun l acc => l ++ '\n' :: acc) []

theorem splitOnNl_joinLines (ls : List (List Char))
    (h : ∀ l ∈ ls, '\n' ∉ l) : splitOnNl (joinLines ls) = ls ++ [[]] := by
  induction ls with
  | nil => simp [joinLines, splitOnNl]
  | cons l rest ih =>
    rw [joinLines, List.foldr_cons]
    rw [splitOnNl_line l (h l (List.mem_cons_self l rest)) _]
    rw [show List.foldr (fun l acc => l ++ '\n' :: acc) [] rest = joinLines rest
      from rfl]
    rw [ih (fun x hx => h x (List.mem_cons_of_mem l hx))]
    rfl

theorem lineBlock_spec (p : List Char → Bool) (s block : List Char)
    (h : lineBlock p s = some block) :
    ∃ bl, bl ≠ [] ∧ (∀ l ∈ bl, p l = true) ∧ (∀ l ∈ bl, '\n' ∉ l) ∧
      block = joinLines bl ∧ termLines block = bl := by
  rw [lineBlock] at h
  split at h
  · simp at h
  · rename_i hbl
    refine ⟨(termLines s).takeWhile p, hbl, ?_, ?_, ?_, ?_⟩
    · intro l hl
      exact List.mem_takeWhile_imp hl
    · intro l hl
      have hmem : l ∈ termLines s := List.takeWhile_subset _ hl
      exact splitOnNl_no_nl s l (List.dropLast_subset _ hmem)
    · injection h with h
      rw [← h]
      rfl
    · injection h with h
      rw [← h]
      have hnl : ∀ l ∈ (termLines s).takeWhile p, '\n' ∉ l := by
        intro l hl
        exact splitOnNl_no_nl s l
          (List.dropLast_subset _ (List.takeWhile_subset _ hl))
      rw [show List.foldr (fun l acc => l ++ '\n' :: acc) []
          ((termLines s).takeWhile p) = joinLines ((termLines s).takeWhile p)
        from rfl]
      rw [termLines, splitOnNl_joinLines _ hnl]
      exact List.dropLast_concat ..

/-- The document of the C8 counterexample: a well-formed phase line follows a
malformed one inside the phases section. -/
def c8Doc : List Char := cs "## Phases\n1. [x] a - b\nzz\n2. [ ] c - d\n"

/-- C8 counterexample: the line `2. [ ] c - d` matches the required phase
shape and lies in the phase-list section of the document, yet `parse_session`
drops it — the preceding malformed line `zz` terminates the captured block,
so a malformed line does drop well-formed lines after it. -/
theorem c8_counterexample :
    (parseSession c8Doc).phases = [⟨1, true, cs "a", cs "b"⟩] ∧
    phaseLineParse (cs "2. [ ] c - d") = some ⟨2, false, cs "c", cs "d"⟩ ∧
    containsSub c8Doc (cs "\n2. [ ] c - d\n") = true := by
  decide

/-- C8 amended: decoding is total with zero-value defaults (an absent status
section leaves the zero counts, empty agent and state `unknown`; an absent
phases block leaves an empty phase list); the captured phase block consists
only of `N. `-shaped lines, and a line failing the full phase pattern is
skipped without affecting the phases parsed from the other lines (in
`main.py`'s `parse_phases` this holds for every line of the document); but a
line not of the `N. `-shape ends the captured block, dropping later lines. -/
theorem c8_decoder_leniency :
    (∀ content, statusBlock content = none →
      (parseSession content).phase = 0 ∧
      (parseSession content).total_phases = 0 ∧
      (parseSession content).current_agent = [] ∧
      (parseSession content).state = cs "unknown") ∧
    (∀ content, phasesBlock content = none →
      (parseSession content).phases = []) ∧
    (∀ (ls1 ls2 : List (List Char)) (junk : List Char),
      phaseLineParse junk = none →
      (ls1 ++ junk :: ls2).filterMap phaseLineParse =
        ls1.filterMap phaseLineParse ++ ls2.filterMap phaseLineParse) ∧
    (∀ content block, phasesBlock content = some block →
      ∀ l ∈ termLines block, isNumLine l = true) := by
  refine ⟨?_, ?_, ?_, ?_⟩
  · intro content h
    simp [parseSession, h]
  · intro content h
    simp [parseSession, h]
  · intro ls1 ls2 junk hjunk
    simp [List.filterMap_append, List.filterMap_cons, hjunk]
  · intro content block h l hl
    obtain ⟨r, hr⟩ := scanFor_some_exists _ _ _ _ h
    cases ha : afterWsNl r with
    | none => rw [ha] at hr; simp at hr
    | some r2 =>
      rw [ha] at hr
      simp only [Option.some_bind] at hr
      obtain ⟨bl, -, hall, -, -, hterm⟩ := lineBlock_spec isNumLine r2 block hr
      exact hall l (hterm ▸ hl)

/-- C8 witness: a junk line between two well-formed phase lines is skipped
without dropping either neighbour in the line-by-line parse. -/
theorem c8_witness :
    ([cs "1. [x] a - b"] ++ (cs "junk") :: [cs "2. [ ] c - d"]).filterMap
        phaseLineParse =
      [cs "1. [x] a - b"].filterMap phaseLineParse ++
        [cs "2. [ ] c - d"].filterMap phaseLineParse :=
  c8_decoder_leniency.2.2.1 [cs "1. [x] a - b"] [cs "2. [ ] c - d"]
    (cs "junk") (by decide)

/-! ## Claim C1: toolkit -/

theorem isPrefixOf_self_append (p r : List Char) :
    p.isPrefixOf (p ++ r) = true := by
  induction p with
  | nil => simp [List.isPrefixOf]
  | cons c t ih => simpa [List.isPrefixOf] using ih

theorem prefix_of_le (p x y : List Char) (h : p.isPrefixOf (x ++ y) = true)
    (hl : p.length ≤ x.length) : p.isPrefixOf x = true := by
  induction p generalizing x with
  | nil => simp [List.isPrefixOf]
  | cons c t ih =>
    cases x with
    | nil => simp at hl
    | cons d x' =>
      simp only [List.cons_append, List.isPrefixOf_cons₂, Bool.and_eq_true] at h ⊢
      exact ⟨h.1, ih x' h.2 (by simpa using hl)⟩

theorem prefix_of_ge (p x y : List Char) (h : p.isPrefixOf (x ++ y) = true)
    (hl : x.length ≤ p.length) : x.isPrefixOf p = true := by
  induction x generalizing p with
  | nil => simp [List.isPrefixOf]
  | cons d x' ih =>
    cases p with
    | nil => simp at hl
    | cons c t =>
      simp only [List.cons_append, List.isPrefixOf_cons₂, Bool.and_eq_true] at h ⊢
      exact ⟨(beq_iff_eq ..).mpr ((beq_iff_eq ..).mp h.1).symm,
        ih t h.2 (by simpa using hl)⟩

theorem isPrefixOf_length_le (p w : List Char) (h : p.isPrefixOf w = true) :
    p.length ≤ w.length := by
  induction p generalizing w with
  | nil => simp
  | cons c t ih =>
    cases w with
    | nil => simp [List.isPrefixOf] at h
    | cons d w' =>
      simp only [List.isPrefixOf_cons₂, Bool.and_eq_true] at h
      simpa using ih w' h.2

theorem isPrefixOf_getElem (p w : List Char) (h : p.isPrefixOf w = true)
    (j : Nat) (c : Char) (hj : p[j]? = some c) : w[j]? = some c := by
  induction p generalizing w j with
  | nil => simp at hj
  | cons a t ih =>
    cases w with
    | nil => simp [List.isPrefixOf] at h
    | cons d w' =>
      simp only [List.isPrefixOf_cons₂, Bool.and_eq_true] at h
      cases j with
      | zero =>
        simp only [List.getElem?_cons_zero, Option.some.injEq] at hj ⊢
        rw [← hj]
        exact ((beq_iff_eq ..).mp h.1).symm
      | succ j' =>
        simp only [List.getElem?_cons_succ] at hj ⊢
        exact ih w' h.2 j' hj

/-- `scanFor` of a non-empty pattern over the empty document finds nothing. -/
theorem scanFor_nil {α} (pat : List Char) (cont : List Char → Option α)
    (hp : pat ≠ []) : scanFor pat cont [] = none := by
  rw [scanFor, scanStep, if_neg]
  intro hpre
  cases pat with
  | nil => exact hp rfl
  | cons c t => simp [List.isPrefixOf] at hpre

/-- `scanStep` succeeds exactly when the pattern heads the input. -/
theorem scanStep_self {α} (pat : List Char) (cont : List Char → Option α)
    (R : List Char) : scanStep pat cont (pat ++ R) = cont R := by
  rw [scanStep, if_pos (isPrefixOf_self_append pat R), List.drop_left]

/-- `scanFor` at an occurrence of the pattern whose continuation succeeds. -/
theorem scanFor_found {α} (pat : List Char) (cont : List Char → Option α)
    (R : List Char) (a : α) (hc : cont R = some a) :
    scanFor pat cont (pat ++ R) = some a := by
  cases hpr : pat ++ R with
  | nil =>
    rw [scanFor, ← hpr, scanStep_self, hc]
  | cons c t =>
    rw [scanFor, ← hpr, scanStep_self, hc]
    rfl

/-- `scanFor` at an occurrence of the pattern whose continuation fails moves
on to the next position. -/
theorem scanFor_here_fails {α} (pat : List Char) (cont : List Char → Option α)
    (R : List Char) (hc : cont R = none) (c : Char) (t : List Char)
    (hpat : pat = c :: t) :
    scanFor pat cont (pat ++ R) = scanFor pat cont (t ++ R) := by
  subst hpat
  rw [List.cons_append, scanFor, ← List.cons_append, scanStep_self, hc]
  rfl

/-- Skip a piece that lacks the pattern's `j`-th character (provided the next
`j` characters of the remainder also lack it, covering straddling starts). -/
theorem scanFor_skip_char {α} (pat : List Char) (cont : List Char → Option α)
    (j : Nat) (c₀ : Char) (hj : pat[j]? = some c₀) (x rest : List Char)
    (hx : c₀ ∉ x ++ rest.take j) :
    scanFor pat cont (x ++ rest) = scanFor pat cont rest := by
  induction x with
  | nil => rfl
  | cons c t ih =>
    rw [List.cons_append, scanFor]
    have hpre : pat.isPrefixOf (c :: (t ++ rest)) = false := by
      cases hp : pat.isPrefixOf (c :: (t ++ rest)) with
      | false => rfl
      | true =>
        exfalso
        have hw := isPrefixOf_getElem pat _ hp j c₀ hj
        rw [show (c :: (t ++ rest) : List Char) = (c :: t) ++ rest from rfl,
          List.getElem?_append] at hw
        rcases Nat.lt_or_ge j (c :: t).length with hlt | hge
        · rw [if_pos hlt] at hw
          exact hx (List.mem_append_left _ (List.getElem?_mem hw))
        · rw [if_neg (by omega)] at hw
          have hidx : j - (c :: t).length < j := by
            simp only [List.length_cons] at hge ⊢
            omega
          apply hx
          apply List.mem_append_right
          have htk : (rest.take j)[j - (c :: t).length]? = some c₀ := by
            rw [List.getElem?_take, if_pos hidx]
            exact hw
          exact List.getElem?_mem htk
    rw [scanStep, if_neg (by simp [hpre]), orElse_none]
    have hx' : c₀ ∉ t ++ rest.take j := by
      intro hmem
      exact hx (by
        rcases List.mem_append.mp hmem with h | h
        · exact List.mem_append_left _ (List.mem_cons_of_mem c h)
        · exact List.mem_append_right _ h)
    exact ih hx'

theorem ws_cases (c : Char) (h : isWs c = true) :
    c = ' ' ∨ c = '\t' ∨ c = '\n' ∨ c = '\r' ∨ c = '\x0b' ∨ c = '\x0c' := by
  simp only [isWs, Bool.or_eq_true, decide_eq_true_eq] at h
  tauto

theorem digit_not_ws (c : Char) (h : c.isDigit = true) : isWs c = false := by
  cases hw : isWs c with
  | false => rfl
  | true =>
    rcases ws_cases c hw with h' | h' | h' | h' | h' | h' <;> subst h' <;>
      exact absurd h (by decide)

theorem word_not_ws (c : Char) (h : isWord c = true) : isWs c = false := by
  cases hw : isWs c with
  | false => rfl
  | true =>
    rcases ws_cases c hw with h' | h' | h' | h' | h' | h' <;> subst h' <;>
      exact absurd h (by decide)

theorem word_ne_hash (c : Char) (h : isWord c = true) : c ≠ '#' := by
  intro he
  subst he
  exact absurd h (by decide)

theorem word_ne_nl (c : Char) (h : isWord c = true) : c ≠ '\n' := by
  intro he
  subst he
  exact absurd h (by decide)

theorem digit_ne_hash (c : Char) (h : c.isDigit = true) : c ≠ '#' := by
  intro he
  subst he
  exact absurd h (by decide)

theorem digit_ne_nl (c : Char) (h : c.isDigit = true) : c ≠ '\n' := by
  intro he
  subst he
  exact absurd h (by decide)

theorem nonws_ne_nl (c : Char) (h : isWs c = false) : c ≠ '\n' := by
  intro he
  subst he
  exact absurd h (by decide)

theorem mem_nonws_no_nl (x : List Char) (h : ∀ c ∈ x, isWs c = false) :
    '\n' ∉ x := fun hmem => absurd (h '\n' hmem) (by decide)

theorem mem_word_no_nl (x : List Char) (h : ∀ c ∈ x, isWord c = true) :
    '\n' ∉ x := fun hmem => word_ne_nl '\n' (h '\n' hmem) rfl

theorem mem_word_no_hash (x : List Char) (h : ∀ c ∈ x, isWord c = true) :
    '#' ∉ x := fun hmem => word_ne_hash '#' (h '#' hmem) rfl

theorem takeWhile_all_append (p : Char → Bool) (x z : List Char)
    (h : ∀ c ∈ x, p c = true) :
    (x ++ z).takeWhile p = x ++ z.takeWhile p := by
  induction x with
  | nil => rfl
  | cons c t ih =>
    rw [List.cons_append, List.takeWhile_cons, h c (List.mem_cons_self c t)]
    rw [ih (fun d hd => h d (List.mem_cons_of_mem c hd))]
    rfl

theorem takeWhile_head_false (p : Char → Bool) (c : Char) (z : List Char)
    (h : p c = false) : (c :: z).takeWhile p = [] := by
  rw [List.takeWhile_cons, h]
  rfl

theorem dropWhile_all_append (p : Char → Bool) (x z : List Char)
    (h : ∀ c ∈ x, p c = true) :
    (x ++ z).dropWhile p = z.dropWhile p := by
  induction x with
  | nil => rfl
  | cons c t ih =>
    rw [List.cons_append, List.dropWhile_cons, h c (List.mem_cons_self c t)]
    rw [ih (fun d hd => h d (List.mem_cons_of_mem c hd))]
    rfl

theorem dropWhile_head_false (p : Char → Bool) (c : Char) (z : List Char)
    (h : p c = false) : (c :: z).dropWhile p = c :: z := by
  rw [List.dropWhile_cons, h]
  rfl

theorem dropWhile_isWs_id (l : List Char) (h : headNonWs l = true) :
    l.dropWhile isWs = l := by
  cases l with
  | nil => rfl
  | cons c t =>
    rw [headNonWs, Bool.not_eq_true'] at h
    exact dropWhile_head_false isWs c t h

theorem pyStrip_id (l : List Char) (h1 : headNonWs l = true)
    (h2 : lastNonWs l = true) : pyStrip l = l := by
  rw [lastNonWs] at h2
  rw [pyStrip, dropWhile_isWs_id l h1, dropWhile_isWs_id l.reverse h2,
    List.reverse_reverse]

theorem pyStrip_append_nl (l : List Char) (h1 : headNonWs l = true)
    (h2 : lastNonWs l = true) : pyStrip (l ++ ['\n']) = l := by
  cases l with
  | nil => rfl
  | cons c t =>
    rw [lastNonWs] at h2
    rw [headNonWs, Bool.not_eq_true'] at h1
    rw [pyStrip, List.cons_append, dropWhile_head_false isWs c _ h1]
    rw [show ((c :: (t ++ ['\n'])).reverse : List Char)
        = '\n' :: (c :: t).reverse by simp]
    rw [show (('\n' :: (c :: t).reverse).dropWhile isWs : List Char)
        = ((c :: t).reverse).dropWhile isWs from rfl]
    rw [dropWhile_isWs_id _ h2, List.reverse_reverse]

theorem dropLast_cons_ne {α} (a : α) (l : List α) (h : l ≠ []) :
    (a :: l).dropLast = a :: l.dropLast := by
  cases l with
  | nil => exact absurd rfl h
  | cons b t => rfl

theorem termLines_cons (l : List Char) (h : '\n' ∉ l) (rest : List Char) :
    termLines (l ++ '\n' :: rest) = l :: termLines rest := by
  rw [termLines, splitOnNl_line l h rest,
    dropLast_cons_ne l _ (splitOnNl_ne_nil rest)]
  rfl

theorem splitOnNl_of_noNl (l : List Char) (h : '\n' ∉ l) :
    splitOnNl l = [l] := by
  induction l with
  | nil => rfl
  | cons c t ih =>
    have hc : c ≠ '\n' := fun he => h (he ▸ List.mem_cons_self c t)
    rw [splitOnNl, if_neg hc, ih (fun hm => h (List.mem_cons_of_mem c hm))]

theorem mismatchWithin_no_prefix (pat x : List Char)
    (h : mismatchWithin pat x = true) (r : List Char) :
    pat.isPrefixOf (x ++ r) = false := by
  induction pat generalizing x with
  | nil => simp [mismatchWithin] at h
  | cons p ps ih =>
    cases x with
    | nil => simp [mismatchWithin] at h
    | cons c t =>
      rw [mismatchWithin] at h
      cases hpc : p == c with
      | false => simp [List.cons_append, List.isPrefixOf, hpc]
      | true =>
        have hm : mismatchWithin ps t = true := by
          rcases Bool.or_eq_true_iff.mp h with h' | h'
          · rw [bne, hpc] at h'
            exact absurd h' (by decide)
          · exact h'
        simp [List.cons_append, List.isPrefixOf, hpc, ih t hm]

theorem scanFor_skip_lit {α} (pat : List Char) (cont : List Char → Option α)
    (x : List Char) (hb : blocksAll pat x = true) (rest : List Char) :
    scanFor pat cont (x ++ rest) = scanFor pat cont rest := by
  induction x with
  | nil => rfl
  | cons c t ih =>
    rw [blocksAll, Bool.and_eq_true] at hb
    have hpre : pat.isPrefixOf (c :: (t ++ rest)) = false := by
      rw [← List.cons_append]
      exact mismatchWithin_no_prefix pat (c :: t) hb.1 rest
    rw [List.cons_append, scanFor, scanStep, if_neg (by simp [hpre]),
      orElse_none]
    exact ih hb.2

theorem scanFor_skip_nonws {α} (pat : List Char) (cont : List Char → Option α)
    (j : Nat) (w : Char) (hj : pat[j]? = some w) (hw : isWs w = true)
    (hwn : w ≠ '\n') (hpt : '\n' ∉ pat.take j)
    (x : List Char) (hx : ∀ c ∈ x, isWs c = false) (rest : List Char) :
    scanFor pat cont (x ++ '\n' :: rest) = scanFor pat cont ('\n' :: rest) := by
  have hjlen : j < pat.length := by
    by_contra hcon
    rw [List.getElem?_eq_none (Nat.le_of_not_lt hcon)] at hj
    exact Option.noConfusion hj
  induction x with
  | nil => rfl
  | cons c t ih =>
    have hpre : pat.isPrefixOf (c :: (t ++ '\n' :: rest)) = false := by
      cases hp : pat.isPrefixOf (c :: (t ++ '\n' :: rest)) with
      | false => rfl
      | true =>
        exfalso
        have hgj := isPrefixOf_getElem pat _ hp j w hj
        rw [show (c :: (t ++ '\n' :: rest) : List Char)
            = (c :: t) ++ '\n' :: rest from rfl, List.getElem?_append] at hgj
        rcases Nat.lt_or_ge j (c :: t).length with hlt | hge
        · rw [if_pos hlt] at hgj
          have hmem := List.getElem?_mem hgj
          rw [hx w hmem] at hw
          exact Bool.false_ne_true hw
        · rw [if_neg (Nat.not_lt.mpr hge)] at hgj
          rcases Nat.eq_or_lt_of_le hge with heq | hlt'
          · rw [← heq, Nat.sub_self] at hgj
            simp only [List.getElem?_cons_zero] at hgj
            exact hwn (Option.some.inj hgj).symm
          · have hk : (c :: t).length < pat.length := Nat.lt_trans hlt' hjlen
            have hpk := List.getElem?_eq_getElem hk
            have hgk := isPrefixOf_getElem pat _ hp (c :: t).length _ hpk
            rw [show (c :: (t ++ '\n' :: rest) : List Char)
                = (c :: t) ++ '\n' :: rest from rfl, List.getElem?_append,
              if_neg (Nat.lt_irrefl _), Nat.sub_self] at hgk
            simp only [List.getElem?_cons_zero] at hgk
            have hnl : pat[(c :: t).length] = '\n' :=
              (Option.some.inj hgk).symm
            apply hpt
            have htk : (pat.take j)[(c :: t).length]? = some '\n' := by
              rw [List.getElem?_take, if_pos hlt', hpk, hnl]
            exact List.getElem?_mem htk
    rw [List.cons_append, scanFor, scanStep, if_neg (by simp [hpre]),
      orElse_none]
    exact ih (fun d hd => hx d (List.mem_cons_of_mem c hd))

theorem lazyGroup_all (l : List Char)
    (h : containsSub l (cs "\n## ") = false) : lazyGroup l = l := by
  induction l with
  | nil => rfl
  | cons c t ih =>
    rw [containsSub] at h
    split at h
    · exact absurd h (by decide)
    · rename_i hpre
      rw [lazyGroup, if_neg (by simp [Bool.not_eq_true] at hpre ⊢; exact hpre),
        ih h]

theorem lazyGroup_skip (x z : List Char) (hx : '#' ∉ x)
    (hz : ∀ c, z.head? = some c → c ≠ '#') :
    lazyGroup (x ++ z) = x ++ lazyGroup z := by
  induction x with
  | nil => rfl
  | cons c t ih =>
    have hpre : (cs "\n## ").isPrefixOf (c :: (t ++ z)) = false := by
      cases hp : (cs "\n## ").isPrefixOf (c :: (t ++ z)) with
      | false => rfl
      | true =>
        exfalso
        have hg := isPrefixOf_getElem _ _ hp 1 '#' (by decide)
        simp only [List.getElem?_cons_succ] at hg
        cases t with
        | nil =>
          exact hz '#' (by
            cases z with
            | nil => simp at hg
            | cons d r =>
              simp only [List.nil_append] at hg
              simp only [List.getElem?_cons_zero] at hg
              rw [List.head?_cons]
              exact hg) rfl
        | cons d t' =>
          simp only [List.cons_append, List.getElem?_cons_zero] at hg
          exact hx (by
            rw [← Option.some.inj hg]
            exact List.mem_cons_of_mem c (List.mem_cons_self d t'))
    rw [List.cons_append, lazyGroup, if_neg (by simp [hpre]),
      ih (fun hm => hx (List.mem_cons_of_mem c hm))]
    rfl

theorem natDigitChar_isDigit (m : Nat) (h : m < 10) :
    (natDigitChar m).isDigit = true := by
  interval_cases m <;> decide

theorem natDigitChar_toNat (m : Nat) (h : m < 10) :
    (natDigitChar m).toNat = 48 + m := by
  interval_cases m <;> decide

theorem natToDigitsAux_digits (fuel n : Nat) :
    ∀ c ∈ natToDigitsAux fuel n, c.isDigit = true := by
  induction fuel generalizing n with
  | zero => intro c hc; simp [natToDigitsAux] at hc
  | succ f ih =>
    intro c hc
    rw [natToDigitsAux] at hc
    split at hc
    · rename_i hn
      simp only [List.mem_singleton] at hc
      subst hc
      exact natDigitChar_isDigit n hn
    · rcases List.mem_append.mp hc with h | h
      · exact ih _ c h
      · simp only [List.mem_singleton] at h
        subst h
        exact natDigitChar_isDigit _ (Nat.mod_lt _ (by omega))

theorem natToDigits_digits (n : Nat) :
    ∀ c ∈ natToDigits n, c.isDigit = true := natToDigitsAux_digits _ _

theorem natToDigitsAux_ne_nil (f n : Nat) (h : n < f) :
    natToDigitsAux f n ≠ [] := by
  cases f with
  | zero => omega
  | succ f =>
    rw [natToDigitsAux]
    split
    · simp
    · simp

theorem natToDigits_ne_nil (n : Nat) : natToDigits n ≠ [] :=
  natToDigitsAux_ne_nil _ _ (Nat.lt_succ_self n)

theorem natToDigits_no_hash (n : Nat) : '#' ∉ natToDigits n :=
  fun hmem => absurd (natToDigits_digits n '#' hmem) (by decide)

theorem natToDigits_no_nl (n : Nat) : '\n' ∉ natToDigits n :=
  fun hmem => absurd (natToDigits_digits n '\n' hmem) (by decide)

theorem digitsToNat_append_digit (A : List Char) (c : Char) :
    digitsToNat (A ++ [c]) = 10 * digitsToNat A + (c.toNat - 48) := by
  rw [digitsToNat, digitsToNat, List.foldl_append]
  rfl

theorem digitsToNat_natToDigitsAux (f n : Nat) (h : n < f) :
    digitsToNat (natToDigitsAux f n) = n := by
  induction f generalizing n with
  | zero => omega
  | succ f ih =>
    rw [natToDigitsAux]
    split
    · rename_i hn
      have ht := natDigitChar_toNat n hn
      simp only [digitsToNat, List.foldl_cons, List.foldl_nil, ht]
      omega
    · rename_i hn
      push_neg at hn
      have hdiv : n / 10 < f := by omega
      rw [digitsToNat_append_digit, ih (n / 10) hdiv,
        natDigitChar_toNat _ (Nat.mod_lt _ (by omega))]
      omega

theorem digitsToNat_natToDigits (n : Nat) :
    digitsToNat (natToDigits n) = n :=
  digitsToNat_natToDigitsAux _ _ (Nat.lt_succ_self n)

theorem scanFor_skip_piece {α} (pat : List Char) (cont : List Char → Option α)
    (c₀ : Char) (hj : pat[0]? = some c₀) (x : List Char) (hx : c₀ ∉ x)
    (rest : List Char) :
    scanFor pat cont (x ++ rest) = scanFor pat cont rest :=
  scanFor_skip_char pat cont 0 c₀ hj x rest (by simpa using hx)

theorem lastNonWs_append (x y : List Char) (hy : y ≠ []) :
    lastNonWs (x ++ y) = lastNonWs y := by
  rw [lastNonWs, lastNonWs, List.reverse_append]
  cases hyr : y.reverse with
  | nil => exact absurd (List.reverse_eq_nil_iff.mp hyr) hy
  | cons e es => rfl

theorem phaseLineText_eq (p : Phase) :
    phaseLineText p = natToDigits p.number ++ (cs ". [" ++
      ([if p.complete then 'x' else ' '] ++ (cs "] " ++
        (p.agent ++ (cs " - " ++ p.description))))) := by
  rw [phaseLineText]
  simp [List.append_assoc]

theorem phaseLineText_head (p : Phase) :
    ∃ d t, phaseLineText p = d :: t ∧ d.isDigit = true := by
  cases hD : natToDigits p.number with
  | nil => exact absurd hD (natToDigits_ne_nil _)
  | cons d ds =>
    refine ⟨d, ds ++ (cs ". [" ++ ([if p.complete then 'x' else ' '] ++
      (cs "] " ++ (p.agent ++ (cs " - " ++ p.description))))), ?_, ?_⟩
    · rw [phaseLineText_eq, hD]
      rfl
    · exact natToDigits_digits p.number d (hD ▸ List.mem_cons_self d ds)

theorem phaseLineText_no_nl (p : Phase) (h : PhaseWF p) :
    '\n' ∉ phaseLineText p := by
  obtain ⟨ha1, ha2, ha3, hd1, hd2, hd3, hd4⟩ := h
  rw [phaseLineText_eq]
  intro hm
  simp only [List.mem_append] at hm
  rcases hm with h | h | h | h | h | h | h
  · exact natToDigits_no_nl p.number h
  · exact absurd h (by decide)
  · revert h
    cases p.complete <;> decide
  · exact absurd h (by decide)
  · exact mem_nonws_no_nl _ ha2 h
  · exact absurd h (by decide)
  · exact hd2 h

theorem phaseLineText_no_hash (p : Phase) (h : PhaseWF p) :
    '#' ∉ phaseLineText p := by
  obtain ⟨ha1, ha2, ha3, hd1, hd2, hd3, hd4⟩ := h
  rw [phaseLineText_eq]
  intro hm
  simp only [List.mem_append] at hm
  rcases hm with h | h | h | h | h | h | h
  · exact natToDigits_no_hash p.number h
  · exact absurd h (by decide)
  · revert h
    cases p.complete <;> decide
  · exact absurd h (by decide)
  · exact ha3 h
  · exact absurd h (by decide)
  · exact hd3 h

theorem phaseLineText_lastNonWs (p : Phase) (h : PhaseWF p) :
    lastNonWs (phaseLineText p) = true := by
  obtain ⟨ha1, ha2, ha3, hd1, hd2, hd3, hd4⟩ := h
  rw [phaseLineText, lastNonWs_append _ _ hd1]
  exact hd4

theorem isNumLine_shape (D r : List Char) (hD1 : D ≠ [])
    (hDd : ∀ c ∈ D, c.isDigit = true) (hr : r ≠ []) :
    isNumLine (D ++ '.' :: ' ' :: r) = true := by
  simp only [isNumLine]
  rw [takeWhile_all_append _ _ _ hDd,
    takeWhile_head_false Char.isDigit '.' _ (by decide), List.append_nil,
    List.drop_left]
  simp [hD1, hr]

theorem isNumLine_phaseLineText (p : Phase) :
    isNumLine (phaseLineText p) = true := by
  have he : phaseLineText p = natToDigits p.number ++ '.' :: ' ' :: ('[' ::
      ([if p.complete then 'x' else ' '] ++ (cs "] " ++ (p.agent ++
        (cs " - " ++ p.description))))) := by
    rw [phaseLineText_eq]
    rfl
  rw [he]
  exact isNumLine_shape _ _ (natToDigits_ne_nil _) (natToDigits_digits _)
    (by simp)

theorem phasesText_ne_nil (p : Phase) (ps : List Phase) :
    phasesText (p :: ps) ≠ [] := by
  obtain ⟨d, t, hdt, _⟩ := phaseLineText_head p
  cases ps with
  | nil =>
    rw [phasesText, hdt]
    simp
  | cons q r =>
    rw [phasesText, hdt]
    simp

theorem phasesText_head (p : Phase) (ps : List Phase) :
    ∃ d t, phasesText (p :: ps) = d :: t ∧ d.isDigit = true := by
  obtain ⟨d, t, hdt, hdig⟩ := phaseLineText_head p
  cases ps with
  | nil => exact ⟨d, t, by rw [phasesText, hdt], hdig⟩
  | cons q r =>
    refine ⟨d, t ++ '\n' :: phasesText (q :: r), ?_, hdig⟩
    rw [phasesText, hdt]
    rfl

theorem phasesText_no_hash (ps : List Phase) (h : ∀ p ∈ ps, PhaseWF p) :
    '#' ∉ phasesText ps := by
  match ps with
  | [] => simp [phasesText]
  | [p] =>
    rw [phasesText]
    exact phaseLineText_no_hash p (h p (List.mem_cons_self p []))
  | p :: q :: r =>
    rw [phasesText]
    intro hm
    rcases List.mem_append.mp hm with h' | h'
    · exact phaseLineText_no_hash p (h p (List.mem_cons_self p _)) h'
    · rcases List.mem_cons.mp h' with h'' | h''
      · exact absurd h'' (by decide)
      · exact phasesText_no_hash (q :: r)
          (fun x hx => h x (List.mem_cons_of_mem p hx)) h''

theorem phasesText_lastNonWs (ps : List Phase) (h : ∀ p ∈ ps, PhaseWF p) :
    ∀ p₀ ps₀, ps = p₀ :: ps₀ → lastNonWs (phasesText ps) = true := by
  match ps with
  | [] => intro p₀ ps₀ he; exact absurd he (by simp)
  | [p] =>
    intro p₀ ps₀ he
    rw [phasesText]
    exact phaseLineText_lastNonWs p (h p (List.mem_cons_self p []))
  | p :: q :: r =>
    intro p₀ ps₀ he
    rw [phasesText, show (phaseLineText p ++ '\n' :: phasesText (q :: r) :
        List Char) = (phaseLineText p ++ ['\n']) ++ phasesText (q :: r) by
      simp]
    rw [lastNonWs_append _ _ (phasesText_ne_nil q r)]
    exact phasesText_lastNonWs (q :: r)
      (fun x hx => h x (List.mem_cons_of_mem p hx)) q r rfl

theorem termLines_phasesText (ps : List Phase) (h : ∀ p ∈ ps, PhaseWF p)
    (hne : ps ≠ []) (rest : List Char) :
    termLines (phasesText ps ++ '\n' :: rest)
      = ps.map phaseLineText ++ termLines rest := by
  match ps with
  | [] => exact absurd rfl hne
  | [p] =>
    rw [phasesText,
      termLines_cons _ (phaseLineText_no_nl p (h p (List.mem_cons_self p []))) _]
    rfl
  | p :: q :: r =>
    rw [phasesText, show ((phaseLineText p ++ '\n' :: phasesText (q :: r)) ++
        '\n' :: rest : List Char) = phaseLineText p ++ '\n' ::
        (phasesText (q :: r) ++ '\n' :: rest) by simp]
    rw [termLines_cons _ (phaseLineText_no_nl p (h p (List.mem_cons_self p _))) _]
    rw [termLines_phasesText (q :: r) (fun x hx => h x (List.mem_cons_of_mem p hx))
      (by simp) rest]
    rfl

theorem splitOnNl_phasesText (ps : List Phase) (h : ∀ p ∈ ps, PhaseWF p) :
    splitOnNl (phasesText ps) = if ps = [] then [[]] else ps.map phaseLineText := by
  match ps with
  | [] => rw [phasesText, if_pos rfl]; rfl
  | [p] =>
    rw [phasesText, if_neg (by simp),
      splitOnNl_of_noNl _ (phaseLineText_no_nl p (h p (List.mem_cons_self p [])))]
    rfl
  | p :: q :: r =>
    rw [phasesText, if_neg (by simp),
      splitOnNl_line _ (phaseLineText_no_nl p (h p (List.mem_cons_self p _))) _]
    rw [splitOnNl_phasesText (q :: r) (fun x hx => h x (List.mem_cons_of_mem p hx))]
    rw [if_neg (by simp)]
    rfl

theorem joinLines_map_phaseLineText (ps : List Phase) :
    ∀ p₀ ps₀, ps = p₀ :: ps₀ →
      joinLines (ps.map phaseLineText) = phasesText ps ++ ['\n'] := by
  match ps with
  | [] => intro p₀ ps₀ he; exact absurd he (by simp)
  | [p] =>
    intro p₀ ps₀ he
    rw [List.map_cons, List.map_nil, joinLines, List.foldr_cons,
      List.foldr_nil, phasesText]
  | p :: q :: r =>
    intro p₀ ps₀ he
    rw [List.map_cons, joinLines, List.foldr_cons,
      show (List.foldr (fun l acc => l ++ '\n' :: acc) []
        ((q :: r).map phaseLineText) : List Char)
        = joinLines ((q :: r).map phaseLineText) from rfl,
      joinLines_map_phaseLineText (q :: r) q r rfl, phasesText]
    simp

theorem flag_decide (b : Bool) :
    decide ((if b then 'x' else ' ') = 'x') = b := by
  cases b <;> rfl

theorem phasesText_headNonWs (p₀ : Phase) (ps₀ : List Phase) :
    headNonWs (phasesText (p₀ :: ps₀)) = true := by
  obtain ⟨d, t, hdt, hdig⟩ := phasesText_head p₀ ps₀
  rw [hdt, headNonWs, digit_not_ws d hdig]
  rfl

theorem phaseLineParse_phaseLineText (p : Phase) (h : PhaseWF p) :
    phaseLineParse (phaseLineText p) = some p := by
  obtain ⟨ha1, ha2, ha3, hd1, hd2, hd3, hd4⟩ := h
  have hstrip : pyStrip (phaseLineText p) = phaseLineText p := by
    apply pyStrip_id
    · obtain ⟨d, t, hdt, hdig⟩ := phaseLineText_head p
      rw [hdt, headNonWs, digit_not_ws d hdig]
      rfl
    · exact phaseLineText_lastNonWs p ⟨ha1, ha2, ha3, hd1, hd2, hd3, hd4⟩
  have htw : (phaseLineText p).takeWhile Char.isDigit = natToDigits p.number := by
    rw [phaseLineText_eq, takeWhile_all_append _ _ _ (natToDigits_digits _),
      show ((cs ". [" ++ ([if p.complete then 'x' else ' '] ++ (cs "] " ++
          (p.agent ++ (cs " - " ++ p.description))))).takeWhile Char.isDigit
        : List Char) = [] from takeWhile_head_false _ '.' _ (by decide),
      List.append_nil]
  have hdrop : (phaseLineText p).drop (natToDigits p.number).length
      = '.' :: ' ' :: '[' :: (if p.complete then 'x' else ' ') :: ']' :: ' ' ::
        (p.agent ++ (cs " - " ++ p.description)) := by
    rw [phaseLineText_eq, List.drop_left]
    rfl
  have hwtw : (p.agent ++ (cs " - " ++ p.description)).takeWhile
      (fun ch => !isWs ch) = p.agent := by
    rw [takeWhile_all_append _ _ _ (fun c hc => by rw [ha2 c hc]; rfl),
      show ((cs " - " ++ p.description).takeWhile (fun ch => !isWs ch)
        : List Char) = [] from takeWhile_head_false _ ' ' _ (by decide),
      List.append_nil]
  have hwdrop : (p.agent ++ (cs " - " ++ p.description)).drop p.agent.length
      = ' ' :: '-' :: ' ' :: p.description := by
    rw [List.drop_left]
    rfl
  simp only [phaseLineParse]
  rw [hstrip, htw, if_neg (natToDigits_ne_nil p.number), hdrop]
  split
  · rename_i c r heq
    injection heq with h1 heq
    injection heq with h2 heq
    injection heq with h3 heq
    injection heq with hc heq
    injection heq with h5 heq
    injection heq with h6 heq
    subst heq
    subst hc
    rw [if_pos (by cases p.complete <;> simp)]
    simp only [hwtw]
    rw [if_neg ha1, hwdrop]
    split
    · rename_i desc heq2
      injection heq2 with g1 heq2
      injection heq2 with g2 heq2
      injection heq2 with g3 heq2
      subst heq2
      rw [if_neg hd1]
      rw [digitsToNat_natToDigits, flag_decide]
    · rename_i hne2
      exact absurd rfl (hne2 p.description)
  · rename_i hne
    exact absurd rfl (hne (if p.complete then 'x' else ' ')
      (p.agent ++ (cs " - " ++ p.description)))

theorem filterMap_phaseLineParse (ps : List Phase) (h : ∀ p ∈ ps, PhaseWF p) :
    (ps.map phaseLineText).filterMap phaseLineParse = ps := by
  induction ps with
  | nil => rfl
  | cons p t ih =>
    rw [List.map_cons,
      List.filterMap_cons_some
        (phaseLineParse_phaseLineText p (h p (List.mem_cons_self p t))),
      ih (fun x hx => h x (List.mem_cons_of_mem p hx))]

theorem parsePhasesBlock_text (ps : List Phase) (hne : ps ≠ [])
    (h : ∀ p ∈ ps, PhaseWF p) :
    parsePhasesBlock (phasesText ps ++ ['\n']) = ps := by
  cases ps with
  | nil => exact absurd rfl hne
  | cons p₀ ps₀ =>
    rw [parsePhasesBlock,
      pyStrip_append_nl _ (phasesText_headNonWs p₀ ps₀)
        (phasesText_lastNonWs (p₀ :: ps₀) h p₀ ps₀ rfl),
      splitOnNl_phasesText _ h, if_neg (by simp)]
    exact filterMap_phaseLineParse _ h

end Orchestrator
